import Mathlib

/-!
Verification of the Evaluation Registry scraping/reshaping pipeline
(`evaluation_registry/scrape_evaluations.py`).

The script scrapes evaluation detail pages, assembles them into a pandas
DataFrame, and reshapes the table: it drops "Page not found" rows and exact
duplicates, strips the "Closed organisation: " marker from two columns,
validates the "Evaluation types" and "Event Name" vocabularies, expands
evaluation types into boolean columns, and runs an
explode / parse / sort / drop-duplicates / pivot sequence over the paired
"Event Name" / "Event date" multi-valued fields.

This file gives a shallow embedding of that pipeline.  Python / pandas string
and list primitives are modelled on `List Char` / `List String`; machinery
that the script delegates to pandas (stable lexicographic sort, keep-last
duplicate dropping, pivoting) is modelled by executable Lean functions whose
behaviour matches the pandas semantics used by the script.
-/

/-! ## Python string primitives

`pyContains pat s` models Python's `pat in s` (and `pandas.Series.str.contains`
with a metacharacter-free pattern): `pat` occurs as a contiguous substring.
`pySplit` models `str.split(sep)` for a non-empty separator: left-to-right,
non-overlapping, empty tokens kept, `"".split(sep) = [""]`.
`pyReplace` models `str.replace(old, new)` for a non-empty `old`:
left-to-right replacement of non-overlapping occurrences.
The recursions are fuelled by the string length so that every definition is
structurally recursive and kernel-reducible. -/

def pyContainsL (pat : List Char) : List Char → Bool
  | [] => pat.isEmpty
  | c :: rest => pat.isPrefixOf (c :: rest) || pyContainsL pat rest

/-- `pat` occurs as a contiguous substring of `s`.  Spec-side notion used to
state the evaluation-type flag claims. -/
def IsSubstring (pat s : String) : Prop :=
  ∃ l r, s.toList = l ++ pat.toList ++ r

def splitGo (sep : List Char) : Nat → List Char → List Char → List (List Char)
  | _, acc, [] => [acc.reverse]
  | 0, acc, rest => [acc.reverse ++ rest]
  | fuel + 1, acc, c :: rest =>
    if sep.isPrefixOf (c :: rest) then
      acc.reverse :: splitGo sep fuel [] (rest.drop (sep.length - 1))
    else
      splitGo sep fuel (c :: acc) rest

def pySplit (sep s : String) : List String :=
  (splitGo sep.toList s.toList.length [] s.toList).map (fun l => String.mk l)

def replGo (pat repl : List Char) : Nat → List Char → List Char
  | _, [] => []
  | 0, s => s
  | fuel + 1, c :: rest =>
    if pat.isPrefixOf (c :: rest) then
      repl ++ replGo pat repl fuel (rest.drop (pat.length - 1))
    else
      c :: replGo pat repl fuel rest

def pyReplace (s pat repl : String) : String :=
  String.mk (replGo pat.toList repl.toList s.toList.length s.toList)

/-! ## Month-year date handling

`pd.to_datetime(x, errors="coerce", format="%B %Y")` parses a full English
month name, one space, and a digit year; anything else coerces to `NaT`
(modelled as `none`).  A parsed value is the pair `(year, month)`.
`.dt.strftime("%Y-%m")` then renders `YYYY-MM`. -/

def monthNames : List String :=
  ["January", "February", "March", "April", "May", "June",
   "July", "August", "September", "October", "November", "December"]

def isDigits (l : List Char) : Bool :=
  !l.isEmpty && l.all (fun c => c.isDigit)

def digitsToNat (l : List Char) : Nat :=
  l.foldl (fun a c => a * 10 + (c.toNat - 48)) 0

def findMonth (cs : List Char) : List String → Nat → Option (Nat × Nat)
  | [], _ => none
  | m :: ms, k =>
    let ml := m.toList
    if ml.isPrefixOf cs then
      match cs.drop ml.length with
      | ' ' :: ds => if isDigits ds then some (digitsToNat ds, k) else findMonth cs ms (k + 1)
      | _ => findMonth cs ms (k + 1)
    else
      findMonth cs ms (k + 1)

/-- Parse `"Month YYYY"` into `(year, month)`; `none` models `NaT`. -/
def parseMonthYear (s : String) : Option (Nat × Nat) :=
  findMonth s.toList monthNames 1

def natPad (w n : Nat) : String :=
  let s := toString n
  String.mk (List.replicate (w - s.length) '0') ++ s

/-- `strftime("%Y-%m")` on a parsed `(year, month)` value. -/
def formatYM (p : Nat × Nat) : String :=
  natPad 4 p.1 ++ "-" ++ natPad 2 p.2

/-! ## Basic lemmas about the string primitives -/

theorem pyContainsL_iff (pat : List Char) :
    ∀ s : List Char, pyContainsL pat s = true ↔ ∃ l r, s = l ++ pat ++ r := by
  intro s
  induction s with
  | nil =>
    simp only [pyContainsL, List.isEmpty_iff]
    constructor
    · rintro rfl; exact ⟨[], [], rfl⟩
    · rintro ⟨l, r, h⟩
      rcases List.append_eq_nil.mp h.symm with ⟨h1, h2⟩
      exact (List.append_eq_nil.mp h1).2
  | cons c rest ih =>
    simp only [pyContainsL, Bool.or_eq_true, List.isPrefixOf_iff_prefix]
    constructor
    · rintro (hpre | hrec)
      · rcases hpre with ⟨r, hr⟩
        exact ⟨[], r, by simp [hr.symm]⟩
      · rcases ih.mp hrec with ⟨l, r, hr⟩
        exact ⟨c :: l, r, by simp [hr]⟩
    · rintro ⟨l, r, hr⟩
      match l, hr with
      | [], hr =>
        left
        exact ⟨r, by simpa using hr.symm⟩
      | x :: l', hr =>
        right
        refine ih.mpr ⟨l', r, ?_⟩
        simpa using congrArg List.tail hr

/-- The executable substring test agrees with the spec-side substring notion. -/
theorem pyContains_iff_isSubstring (pat s : String) :
    pyContainsL pat.toList s.toList = true ↔ IsSubstring pat s :=
  pyContainsL_iff pat.toList s.toList

theorem replGo_of_not_contains (pat repl : List Char) :
    ∀ s fuel, s.length ≤ fuel → pyContainsL pat s = false → replGo pat repl fuel s = s := by
  intro s
  induction s with
  | nil => intro fuel _ _; cases fuel <;> rfl
  | cons c rest ih =>
    intro fuel hf hc
    simp only [pyContainsL, Bool.or_eq_false_iff] at hc
    match fuel, hf with
    | f + 1, hf =>
      simp only [replGo, hc.1, Bool.false_eq_true, if_false]
      exact congrArg (c :: ·) (ih f (by simpa using hf) hc.2)

/-- A value with no occurrence of the pattern is left unchanged by
`str.replace`. -/
theorem pyReplace_of_not_contains (s pat repl : String)
    (h : pyContainsL pat.toList s.toList = false) :
    pyReplace s pat repl = s := by
  unfold pyReplace
  rw [replGo_of_not_contains pat.toList repl.toList s.toList s.toList.length le_rfl h]
  cases s; rfl

theorem replGo_strip (p : Char) (ps w : List Char)
    (hw : pyContainsL (p :: ps) w = false) :
    replGo (p :: ps) [] ((p :: ps) ++ w).length ((p :: ps) ++ w) = w := by
  have hlen : ((p :: ps) ++ w).length = (ps ++ w).length + 1 := by simp
  rw [hlen]
  have hpre : (p :: ps).isPrefixOf ((p :: ps) ++ w) = true := by
    rw [List.isPrefixOf_iff_prefix]; exact ⟨w, rfl⟩
  show (if (p :: ps).isPrefixOf (p :: (ps ++ w)) = true then
          [] ++ replGo (p :: ps) [] (ps ++ w).length ((ps ++ w).drop ((p :: ps).length - 1))
        else p :: replGo (p :: ps) [] (ps ++ w).length (ps ++ w)) = w
  rw [show p :: (ps ++ w) = (p :: ps) ++ w from rfl, hpre]
  simp only [if_true, List.nil_append, List.length_cons, Nat.add_sub_cancel]
  rw [List.drop_left]
  exact replGo_of_not_contains (p :: ps) [] w (ps ++ w).length (by simp) hw

/-- If the value is exactly the pattern followed by a pattern-free remainder,
`str.replace(pat, "")` strips the leading pattern. -/
theorem pyReplace_strips_leading (pat w : String) (hp : pat.toList ≠ [])
    (hw : pyContainsL pat.toList w.toList = false) :
    pyReplace (String.mk (pat.toList ++ w.toList)) pat "" = w := by
  obtain ⟨p, ps, hps⟩ : ∃ p ps, pat.toList = p :: ps := by
    match h : pat.toList, hp with
    | p :: ps, _ => exact ⟨p, ps, rfl⟩
  show String.mk (replGo pat.toList [] (pat.toList ++ w.toList).length
      (pat.toList ++ w.toList)) = w
  rw [hps, replGo_strip p ps w.toList (hps ▸ hw)]
  exact congrArg String.mk rfl |>.trans (by cases w; rfl)

/-! ## Generic pandas row operations

`dropDupKeepFirst` models `df.loc[~df.duplicated()]` (keep each row's first
occurrence).  `dropDupKeepLast` models
`drop_duplicates(subset=key_cols, keep="last")` (keep a row iff no later row
shares its key, preserving order). -/

def ddkfGo [DecidableEq α] (seen : List α) : List α → List α
  | [] => []
  | x :: xs => if x ∈ seen then ddkfGo seen xs else x :: ddkfGo (x :: seen) xs

def dropDupKeepFirst [DecidableEq α] (l : List α) : List α := ddkfGo [] l

def dropDupKeepLast [DecidableEq κ] (key : α → κ) : List α → List α
  | [] => []
  | x :: xs =>
    if xs.any (fun y => decide (key y = key x)) then dropDupKeepLast key xs
    else x :: dropDupKeepLast key xs

theorem ddkfGo_nodup [DecidableEq α] :
    ∀ (l seen : List α), (ddkfGo seen l).Nodup ∧ ∀ x ∈ ddkfGo seen l, x ∉ seen := by
  intro l
  induction l with
  | nil => intro seen; simp [ddkfGo]
  | cons x xs ih =>
    intro seen
    by_cases hx : x ∈ seen
    · simpa [ddkfGo, hx] using ih seen
    · obtain ⟨hnd, hmem⟩ := ih (x :: seen)
      refine ⟨?_, ?_⟩
      · simp only [ddkfGo, hx, if_false]
        exact List.Nodup.cons (fun hc => (hmem x hc) (List.mem_cons_self x seen)) hnd
      · intro y hy
        simp only [ddkfGo, hx, if_false, List.mem_cons] at hy
        rcases hy with rfl | hy
        · exact hx
        · exact fun hc => hmem y hy (List.mem_cons_of_mem x hc)

theorem ddkfGo_sublist [DecidableEq α] :
    ∀ (l seen : List α), (ddkfGo seen l).Sublist l := by
  intro l
  induction l with
  | nil => intro seen; simp [ddkfGo]
  | cons x xs ih =>
    intro seen
    by_cases hx : x ∈ seen
    · simpa [ddkfGo, hx] using (ih seen).cons x
    · simpa [ddkfGo, hx] using (ih (x :: seen)).cons₂ x

theorem ddkfGo_of_nodup [DecidableEq α] :
    ∀ (l seen : List α), l.Nodup → (∀ x ∈ l, x ∉ seen) → ddkfGo seen l = l := by
  intro l
  induction l with
  | nil => intro seen _ _; rfl
  | cons x xs ih =>
    intro seen hnd hdisj
    have hx : x ∉ seen := hdisj x (List.mem_cons_self x xs)
    simp only [ddkfGo, hx, if_false]
    refine congrArg (x :: ·) (ih (x :: seen) (List.Nodup.of_cons hnd) ?_)
    intro y hy
    simp only [List.mem_cons]
    rintro (rfl | hys)
    · exact (List.nodup_cons.mp hnd).1 hy
    · exact hdisj y (List.mem_cons_of_mem x hy) hys

/-- Keeping the first of each group of duplicate rows is idempotent. -/
theorem dropDupKeepFirst_idem [DecidableEq α] (l : List α) :
    dropDupKeepFirst (dropDupKeepFirst l) = dropDupKeepFirst l :=
  ddkfGo_of_nodup _ [] (ddkfGo_nodup l []).1 (by simp)

theorem mem_dropDupKeepLast [DecidableEq κ] (key : α → κ) :
    ∀ l : List α, ∀ x ∈ dropDupKeepLast key l, x ∈ l := by
  intro l
  induction l with
  | nil => intro x hx; simpa [dropDupKeepLast] using hx
  | cons a as ih =>
    intro x hx
    by_cases h : (as.any (fun y => decide (key y = key a))) = true
    · rw [dropDupKeepLast, if_pos h] at hx
      exact List.mem_cons_of_mem a (ih x hx)
    · rw [dropDupKeepLast, if_neg h] at hx
      rcases List.mem_cons.mp hx with rfl | hx
      · exact List.mem_cons_self x as
      · exact List.mem_cons_of_mem a (ih x hx)

/-- After keep-last duplicate dropping, each key occurring in the input
survives in exactly one row. -/
theorem dropDupKeepLast_filter_length [DecidableEq κ] (key : α → κ) (k : κ) :
    ∀ l : List α, k ∈ l.map key →
      ((dropDupKeepLast key l).filter (fun x => decide (key x = k))).length = 1 := by
  intro l
  induction l with
  | nil => intro h; simp at h
  | cons a as ih =>
    intro hk
    by_cases h : (as.any (fun y => decide (key y = key a))) = true
    · rw [dropDupKeepLast, if_pos h]
      apply ih
      rcases List.mem_map.mp hk with ⟨x, hx, hkey⟩
      rcases List.mem_cons.mp hx with rfl | hx
      · rcases List.any_eq_true.mp h with ⟨y, hy, hky⟩
        exact hkey ▸ List.mem_map.mpr ⟨y, hy, of_decide_eq_true hky⟩
      · exact List.mem_map.mpr ⟨x, hx, hkey⟩
    · rw [dropDupKeepLast, if_neg h]
      by_cases hka : key a = k
      · rw [List.filter_cons_of_pos (by simpa using hka)]
        have hnone : ∀ x ∈ dropDupKeepLast key as, ¬ key x = k := by
          intro x hx hc
          have hxs := mem_dropDupKeepLast key as x hx
          have : as.any (fun y => decide (key y = key a)) = true :=
            List.any_eq_true.mpr ⟨x, hxs, decide_eq_true (hc.trans hka.symm)⟩
          exact h this
        rw [List.filter_eq_nil_iff.mpr (fun x hx => by simpa using hnone x hx)]
        rfl
      · rw [List.filter_cons_of_neg (by simpa using hka)]
        apply ih
        rcases List.mem_map.mp hk with ⟨x, hx, hkey⟩
        rcases List.mem_cons.mp hx with rfl | hx
        · exact absurd hkey hka
        · exact List.mem_map.mpr ⟨x, hx, hkey⟩

/-- In a list sorted by `R`, a surviving row of the keep-last duplicate drop
is `R`-above every row of the list that shares its key. -/
theorem dropDupKeepLast_ge [DecidableEq κ] (key : α → κ) {R : α → α → Prop}
    (hrefl : ∀ a, R a a) :
    ∀ l : List α, l.Pairwise R → ∀ s ∈ dropDupKeepLast key l,
      ∀ e ∈ l, key e = key s → R e s := by
  intro l
  induction l with
  | nil => intro _ s hs; simp [dropDupKeepLast] at hs
  | cons a as ih =>
    intro hpw s hs e he hke
    obtain ⟨hhead, htail⟩ := List.pairwise_cons.mp hpw
    by_cases h : (as.any (fun y => decide (key y = key a))) = true
    · rw [dropDupKeepLast, if_pos h] at hs
      rcases List.mem_cons.mp he with rfl | he
      · exact hhead s (mem_dropDupKeepLast key as s hs)
      · exact ih htail s hs e he hke
    · rw [dropDupKeepLast, if_neg h] at hs
      rcases List.mem_cons.mp hs with hsa | hs'
      · rcases List.mem_cons.mp he with hea | he'
        · rw [hea, hsa]; exact hrefl a
        · exact absurd
            (List.any_eq_true.mpr ⟨e, he', decide_eq_true (by rw [hke, hsa])⟩) h
      · rcases List.mem_cons.mp he with hea | he'
        · exact hea ▸ hhead s (mem_dropDupKeepLast key as s hs')
        · exact ih htail s hs' e he' hke

/-! ## Data model: pages, raw records, table rows

`Page` models the parsed HTML of one detail page (heading text, designated
body paragraph, and the `govuk-summary-list` key/value rows, all already
whitespace-trimmed).  `getDetails` is the embedding of `get_details`:
it short-circuits on the "Page not found" sentinel and otherwise folds the
summary rows into a field map, joining repeated keys with `", "`.
`Record` models one row of `df_details` restricted to the columns the
pipeline manipulates. -/

structure Page where
  url : String
  heading : String
  bodyPara : String
  summaryRows : List (String × String)

structure Details where
  url : String
  title : String
  description : Option String
  fields : List (String × String)
deriving DecidableEq

def addField (fs : List (String × String)) (k v : String) : List (String × String) :=
  if fs.any (fun p => p.1 == k) then
    fs.map (fun p => if p.1 == k then (p.1, p.2 ++ ", " ++ v) else p)
  else fs ++ [(k, v)]

def registryBase : String := "https://evaluation-registry.cabinetoffice.gov.uk"

def getDetails (pathPart : String) (p : Page) : Details :=
  let url := registryBase ++ pathPart
  if p.heading = "Page not found" then
    { url := url, title := p.heading, description := none, fields := [] }
  else
    { url := url, title := p.heading, description := some p.bodyPara,
      fields := p.summaryRows.foldl (fun fs kv => addField fs kv.1 kv.2) [] }

structure Record where
  url : String
  title : String
  description : Option String
  leadDepartment : Option String
  otherDepartments : Option String
  evaluationTypes : Option String
  eventName : Option String
  eventDate : Option String
deriving DecidableEq

def lookupField (fs : List (String × String)) (k : String) : Option String :=
  (fs.find? (fun p => p.1 == k)).map (fun p => p.2)

/-- `pd.DataFrame(details_list)` row: a record's named columns (a missing
key is `NaN`, modelled as `none`). -/
def toRecord (d : Details) : Record :=
  { url := d.url, title := d.title, description := d.description,
    leadDepartment := lookupField d.fields "Lead department",
    otherDepartments := lookupField d.fields "Other departments",
    evaluationTypes := lookupField d.fields "Evaluation types",
    eventName := lookupField d.fields "Event Name",
    eventDate := lookupField d.fields "Event date" }

/-! ## Table Normalizer -/

def closedOrgMarker : String := "Closed organisation: "

/-- The literal newline/indentation artifact collapsed to `", "` in the raw
"Evaluation types" text (a newline, 16 spaces, a newline, 18 spaces). -/
def wsArtifact : String := "\n                \n                  "

def stripClosedOrg : Option String → Option String :=
  Option.map (fun s => pyReplace s closedOrgMarker "")

/-- Collapse the whitespace artifact, then replace an empty string by `NA`
(the `replace(r'^\s*$', pd.NA)` step applied to cells equal to `""`). -/
def cleanEvalTypes (v : Option String) : Option String :=
  let v' := v.map (fun s => pyReplace s wsArtifact ", ")
  if v' = some "" then none else v'

def cleanRecord (r : Record) : Record :=
  { r with leadDepartment := stripClosedOrg r.leadDepartment,
           otherDepartments := stripClosedOrg r.otherDepartments,
           evaluationTypes := cleanEvalTypes r.evaluationTypes }

/-- Rows of `df_details` after the "Page not found" filter, the exact
duplicate-row drop, and the per-column edits. -/
def cleanRecords (input : List Details) : List Record :=
  (dropDupKeepFirst
    ((input.map toRecord).filter
      (fun r => !(r.title == "Page not found")))).map cleanRecord

def expectedEvaluationTypes : List String :=
  ["Impact evaluation", "Process evaluation", "Value for money evaluation", "Other"]

def expectedEventNames : List String :=
  ["Intervention start date", "Intervention end date", "Evaluation start",
   "Evaluation end", "Final data analysis end", "Publication of interim results",
   "Publication of final results", "Not Set", "Other"]

/-- All values found by splitting the non-null cells of a column on `", "`
(the `str.split(", ").explode()` expression inside the two asserts). -/
def observedEvalTypes (rs : List Record) : List String :=
  (rs.filterMap (fun r => r.evaluationTypes)).bind (fun s => pySplit ", " s)

def observedEventNames (rs : List Record) : List String :=
  (rs.filterMap (fun r => r.eventName)).bind (fun s => pySplit ", " s)

/-- Python `set(a) == set(b)`. -/
def setEqB (a b : List String) : Bool :=
  a.all (fun x => b.contains x) && b.all (fun x => a.contains x)

def checkEvalTypes (rs : List Record) : Bool :=
  setEqB (observedEvalTypes rs) expectedEvaluationTypes

def checkEventNames (rs : List Record) : Bool :=
  setEqB (observedEventNames rs) expectedEventNames

def evalTypesErr : String := "Evaluation types values not as expected"
def eventNamesErr : String := "Event Name values not as expected"

/-- A column exists in `pd.DataFrame(details_list)` iff some record's dict
carries the key; accessing a non-existent column (`df["Lead department"]`
etc.) raises `KeyError`.  When the column exists, records without that key
hold `NaN` in it. -/
def hasCol (input : List Details) (k : String) : Bool :=
  input.any (fun d => d.fields.any (fun p => p.1 == k))

def pyContains (pat s : String) : Bool := pyContainsL pat.toList s.toList

/-! ## Event Timeline Reshaper -/

def splitNames (r : Record) : Option (List String) :=
  r.eventName.map (fun s => pySplit ", " s)

def splitDates (r : Record) : Option (List String) :=
  r.eventDate.map (fun s => pySplit ", " s)

/-- The element count `DataFrame.explode` assigns to a cell: a list-like with
positive length counts its length, everything else (scalar `NaN`, empty
list) counts 1. -/
def mylen : Option (List String) → Nat
  | none => 1
  | some l => if l.length = 0 then 1 else l.length

/-- The per-position cell values `explode` produces for one row's cell. -/
def asCells (n : Nat) : Option (List String) → List (Option String)
  | none => List.replicate n none
  | some [] => List.replicate n none
  | some l => l.map some

/-- A row of the exploded `df_dates` frame: original row index, one
event-name value, one event-date text value. -/
structure Entry where
  idx : Nat
  name : Option String
  date : Option String
deriving DecidableEq

def mismatchMsg : String := "columns must have matching element counts"

def explodeRow (i : Nat) (r : Record) : Except String (List Entry) :=
  if mylen (splitNames r) = mylen (splitDates r) then
    .ok (((asCells (mylen (splitNames r)) (splitNames r)).zip
          (asCells (mylen (splitDates r)) (splitDates r))).map
         (fun p => { idx := i, name := p.1, date := p.2 }))
  else .error mismatchMsg

def explodeGo : Nat → List Record → Except String (List Entry)
  | _, [] => .ok []
  | i, r :: rs =>
    match explodeRow i r with
    | .error msg => .error msg
    | .ok l =>
      match explodeGo (i + 1) rs with
      | .error msg => .error msg
      | .ok ls => .ok (l ++ ls)

/-- `df_details[["Event Name split", "Event date split"]].explode(...)` with
the frame's default `RangeIndex` as row identity. -/
def explodeAll (rs : List Record) : Except String (List Entry) := explodeGo 0 rs

/-- An exploded row after `pd.to_datetime(..., errors="coerce", format="%B %Y")`:
the date text becomes a parsed `(year, month)` or `NaT`. -/
structure PEntry where
  idx : Nat
  name : Option String
  date : Option (Nat × Nat)
deriving DecidableEq

def parseEntry (e : Entry) : PEntry :=
  { idx := e.idx, name := e.name, date := e.date.bind (fun s => parseMonthYear s) }

def parseEntries (es : List Entry) : List PEntry := es.map parseEntry

def ymKey (p : Nat × Nat) : Nat := p.1 * 12 + p.2

/-- Ascending comparison on parsed dates with missing dates (`NaT`) sorted
last (`na_position="last"`). -/
def dleB : Option (Nat × Nat) → Option (Nat × Nat) → Bool
  | _, none => true
  | none, some _ => false
  | some a, some b => decide (ymKey a ≤ ymKey b)

/-- The lexicographic `sort_values(["index", "Event date split"])` order. -/
def entLEB (e f : PEntry) : Bool :=
  decide (e.idx < f.idx) || (decide (e.idx = f.idx) && dleB e.date f.date)

def EntLE (e f : PEntry) : Prop := entLEB e f = true

instance : DecidableRel EntLE :=
  fun e f => inferInstanceAs (Decidable (entLEB e f = true))

theorem dleB_none_right (d : Option (Nat × Nat)) : dleB d none = true := by
  cases d <;> rfl

theorem dleB_none_some (b : Nat × Nat) : dleB none (some b) = false := rfl

theorem dleB_some_some (a b : Nat × Nat) :
    dleB (some a) (some b) = decide (ymKey a ≤ ymKey b) := rfl

instance : IsTotal PEntry EntLE := ⟨by
  rintro ⟨ai, an, ad⟩ ⟨bi, bn, bd⟩
  simp only [EntLE, entLEB, Bool.or_eq_true, Bool.and_eq_true, decide_eq_true_eq]
  rcases ad with _ | da <;> rcases bd with _ | db <;>
    simp only [dleB_none_right, dleB_none_some, dleB_some_some, decide_eq_true_eq,
      Bool.false_eq_true, and_true, and_false] <;> omega⟩

instance : IsTrans PEntry EntLE := ⟨by
  rintro ⟨ai, an, ad⟩ ⟨bi, bn, bd⟩ ⟨ci, cn, cd⟩ hab hbc
  simp only [EntLE, entLEB, Bool.or_eq_true, Bool.and_eq_true, decide_eq_true_eq] at *
  rcases ad with _ | da <;> rcases bd with _ | db <;> rcases cd with _ | dc <;>
    simp only [dleB_none_right, dleB_none_some, dleB_some_some, decide_eq_true_eq,
      Bool.false_eq_true, and_true, and_false, true_and, false_and, or_false,
      false_or] at * <;> omega⟩

/-- The stable sort `reset_index().sort_values(["index", "Event date split"])`
(numpy lexsort: stable, `NaT` last). -/
def sortEntries (es : List PEntry) : List PEntry := List.insertionSort EntLE es

def eKey (e : PEntry) : Nat × Option String := (e.idx, e.name)

/-- `sort_values(...).drop_duplicates(["index", "Event Name split"],
keep="last")`: within each original row, for each event name keep the entry
that comes last in the ascending date order. -/
def resolveDates (es : List PEntry) : List PEntry :=
  dropDupKeepLast eKey (sortEntries es)

/-- One cell of the pivoted, reindexed, `"Event - "`-prefixed date columns
after the left join: the formatted date of the unique surviving entry for
`(row i, event name n)`, if any. -/
def pivotCell (resolved : List PEntry) (i : Nat) (n : String) : Option String :=
  match resolved.find? (fun e => decide (e.idx = i) && decide (e.name = some n)) with
  | some e => e.date.map formatYM
  | none => none

/-- The "Event Name duplicated" flag: the split list is longer than its set
of distinct values (`0 != 0` for a non-list cell). -/
def dupFlag (r : Record) : Bool :=
  match splitNames r with
  | some l => decide (l.length ≠ l.dedup.length)
  | none => false

/-- One row of the final normalized table: the cleaned record columns, the
four evaluation-type boolean columns (in `expectedEvaluationTypes` order),
the duplicate flag, and the nine pivoted date columns (in
`expectedEventNames` order). -/
structure NormRow where
  record : Record
  evalTypeFlags : List (Option Bool)
  eventNameDuplicated : Bool
  eventDates : List (Option String)
deriving DecidableEq

def buildRow (resolved : List PEntry) (i : Nat) (r : Record) : NormRow :=
  { record := r
  , evalTypeFlags :=
      expectedEvaluationTypes.map
        (fun t => r.evaluationTypes.map (fun s => pyContains t s))
  , eventNameDuplicated := dupFlag r
  , eventDates := expectedEventNames.map (fun n => pivotCell resolved i n) }

/-- The full Table Normalizer + Event Timeline Reshaper pipeline on the
extracted records.  Column accesses raise `KeyError` at their first use, in
program order: "Lead department" and "Other departments" at the prefix
strip, "Evaluation types" at the whitespace cleanup (all before the first
assert), "Event Name" between the two asserts, "Event date" at the split
step after them.  (The row filter and duplicate drop never raise and touch
no extra columns, so hoisting the first three guards over them preserves
behaviour.)  The two `assert set(...) == set(...)` statements abort the run
with an `AssertionError`. -/
def normalizeTable (input : List Details) : Except String (List NormRow) :=
  if hasCol input "Lead department" then
    if hasCol input "Other departments" then
      if hasCol input "Evaluation types" then
        let rs := cleanRecords input
        if checkEvalTypes rs then
          if hasCol input "Event Name" then
            if checkEventNames rs then
              if hasCol input "Event date" then
                match explodeAll rs with
                | .error msg => .error msg
                | .ok es =>
                  .ok (rs.enum.map (fun p =>
                    buildRow (resolveDates (parseEntries es)) p.1 p.2))
              else .error "KeyError: Event date"
            else .error eventNamesErr
          else .error "KeyError: Event Name"
        else .error evalTypesErr
      else .error "KeyError: Evaluation types"
    else .error "KeyError: Other departments"
  else .error "KeyError: Lead department"

/-! ## Column-layout model

Positions of named columns.  `colInsert` models `DataFrame.insert(loc, col,
...)` (raising when the column already exists or `loc` is out of range),
`getLoc` models `DataFrame.columns.get_loc` (raising `KeyError` when
absent), `setCol` models `df[col] = ...` (append at end if new), `joinCols`
models `DataFrame.join` (raising on overlapping column names), and
`selectCols` models `df[list]` (raising on a missing name). -/

def locOf (name : String) : List String → Nat
  | [] => 0
  | c :: cs => if c = name then 0 else locOf name cs + 1

def colInsert (cols : List String) (pos : Nat) (name : String) :
    Except String (List String) :=
  if name ∈ cols then .error ("cannot insert " ++ name ++ ", already exists")
  else if cols.length < pos then .error "loc out of bounds"
  else .ok (cols.take pos ++ name :: cols.drop pos)

def getLoc (cols : List String) (name : String) : Except String Nat :=
  if name ∈ cols then .ok (locOf name cols) else .error ("KeyError: " ++ name)

def setCol (cols : List String) (name : String) : List String :=
  if name ∈ cols then cols else cols ++ [name]

def joinCols (cols extra : List String) : Except String (List String) :=
  if extra.any (fun c => cols.contains c) then
    .error "columns overlap but no suffix specified"
  else .ok (cols ++ extra)

def selectCols (cols wanted : List String) : Except String (List String) :=
  if wanted.all (fun c => cols.contains c) then .ok wanted
  else .error "KeyError: column not found"

/-- The `for evaluation_type in expected_evaluation_types: df.insert(pos + i,
...)` loop, inserting each name one position further right. -/
def insertSeq (pos : Nat) (cols : List String) :
    List String → Except String (List String)
  | [] => .ok cols
  | t :: ts =>
    match colInsert cols pos t with
    | .error msg => .error msg
    | .ok c => insertSeq (pos + 1) c ts

def expectedEventCols : List String :=
  expectedEventNames.map (fun n => "Event - " ++ n)

def insertEvalTypeCols (cols : List String) : Except String (List String) :=
  match getLoc cols "Evaluation types" with
  | .error msg => .error msg
  | .ok pos => insertSeq (pos + 1) cols expectedEvaluationTypes

/-- The column layout transformations of the reshaping pipeline, in program
order: evaluation-type boolean columns, the two split working columns, the
join with the pivoted date columns, the duplicate flag, the reordering that
moves the date columns right of the flag, and the final drop of the working
columns. -/
def reorderCols (c4 : List String) (locFlag : Nat) : List String :=
  c4.take (locFlag + 1) ++ expectedEventCols
    ++ (c4.drop (locFlag + 1)).filter (fun c => !(expectedEventCols.contains c))

def dropSplitCols (c5 : List String) : Except String (List String) :=
  if "Event Name split" ∈ c5 ∧ "Event date split" ∈ c5 then
    .ok (c5.filter (fun c => !(c == "Event Name split" || c == "Event date split")))
  else .error "KeyError: drop"

def layoutPipeline (cols0 : List String) : Except String (List String) :=
  Except.bind (insertEvalTypeCols cols0) (fun c1 =>
    Except.bind (joinCols (setCol (setCol c1 "Event Name split") "Event date split")
        expectedEventCols) (fun c3 =>
      Except.bind (getLoc c3 "Event date") (fun locEd =>
        Except.bind (colInsert c3 (locEd + 1) "Event Name duplicated") (fun c4 =>
          Except.bind (getLoc c4 "Event Name duplicated") (fun locFlag =>
            Except.bind (selectCols c4 (reorderCols c4 locFlag))
              dropSplitCols)))))

/-! ## Machinery lemmas: explode, sort, duplicate resolution -/

instance {e a : Type} [DecidableEq e] [DecidableEq a] : DecidableEq (Except e a) :=
  fun x y =>
    match x, y with
    | .ok u, .ok v =>
      if h : u = v then isTrue (by rw [h]) else isFalse (by intro hc; cases hc; exact h rfl)
    | .error u, .error v =>
      if h : u = v then isTrue (by rw [h]) else isFalse (by intro hc; cases hc; exact h rfl)
    | .ok _, .error _ => isFalse (by intro hc; cases hc)
    | .error _, .ok _ => isFalse (by intro hc; cases hc)

theorem asCells_none (n : Nat) : asCells n none = List.replicate n none := rfl

theorem asCells_some_nil (n : Nat) : asCells n (some []) = List.replicate n none := rfl

theorem asCells_some_cons (n : Nat) (x : String) (xs : List String) :
    asCells n (some (x :: xs)) = (x :: xs).map some := rfl

theorem asCells_length (v : Option (List String)) :
    (asCells (mylen v) v).length = mylen v := by
  rcases v with _ | ⟨_ | ⟨x, xs⟩⟩
  · simp [asCells_none]
  · simp [asCells_some_nil, mylen]
  · simp [asCells_some_cons, mylen]

theorem explodeRow_ok_iff (i : Nat) (r : Record) :
    (∃ l, explodeRow i r = .ok l) ↔ mylen (splitNames r) = mylen (splitDates r) := by
  unfold explodeRow
  by_cases h : mylen (splitNames r) = mylen (splitDates r)
  · simp [h]
  · simp [h]

theorem explodeRow_idx {i : Nat} {r : Record} {l : List Entry}
    (h : explodeRow i r = .ok l) : ∀ e ∈ l, e.idx = i := by
  unfold explodeRow at h
  split at h
  · cases h
    intro e he
    rcases List.mem_map.mp he with ⟨p, _, rfl⟩
    rfl
  · cases h

theorem explodeRow_name_mem {i : Nat} {r : Record} {l : List Entry}
    (h : explodeRow i r = .ok l) :
    ∀ e ∈ l, ∀ n, e.name = some n →
      ∃ names, splitNames r = some names ∧ n ∈ names := by
  unfold explodeRow at h
  split at h
  · cases h
    intro e he n hn
    rcases List.mem_map.mp he with ⟨p, hp, rfl⟩
    have h1 := (List.of_mem_zip hp).1
    rcases hv : splitNames r with _ | ⟨_ | ⟨x, xs⟩⟩ <;> rw [hv] at h1
    · rw [asCells_none] at h1
      rw [List.eq_of_mem_replicate h1] at hn
      cases hn
    · rw [asCells_some_nil] at h1
      rw [List.eq_of_mem_replicate h1] at hn
      cases hn
    · rw [asCells_some_cons] at h1
      rcases List.mem_map.mp h1 with ⟨y, hy, hyn⟩
      refine ⟨x :: xs, rfl, ?_⟩
      have : some y = some n := by rw [hyn]; exact hn
      cases this
      exact hy
  · cases h

theorem explodeRow_none_name {i : Nat} {r : Record} {l : List Entry}
    (h : explodeRow i r = .ok l) (hev : r.eventName = none) :
    ∀ e ∈ l, e.name = none := by
  intro e he
  rcases hn : e.name with _ | n
  · rfl
  · rcases explodeRow_name_mem h e he n hn with ⟨names, hs, _⟩
    rw [splitNames, hev] at hs
    cases hs

theorem explodeRow_mem_of_name {i : Nat} {r : Record} {l : List Entry}
    {names : List String} {n : String}
    (h : explodeRow i r = .ok l) (hs : splitNames r = some names) (hn : n ∈ names) :
    ∃ e ∈ l, e.idx = i ∧ e.name = some n := by
  unfold explodeRow at h
  split at h
  case isTrue hml =>
    cases h
    rcases names with _ | ⟨x, xs⟩
    · cases hn
    rcases List.mem_iff_getElem.mp hn with ⟨j, hj, hjn⟩
    have hA : asCells (mylen (splitNames r)) (splitNames r) = (x :: xs).map some := by
      rw [hs, asCells_some_cons]
    have hAlen : (asCells (mylen (splitNames r)) (splitNames r)).length
        = (x :: xs).length := by rw [hA, List.length_map]
    have hBlen : (asCells (mylen (splitDates r)) (splitDates r)).length
        = (x :: xs).length := by
      rw [asCells_length, ← hml, hs]
      simp [mylen]
    have hjA : j < (asCells (mylen (splitNames r)) (splitNames r)).length := by
      rw [hAlen]; exact hj
    have hjz : j < ((asCells (mylen (splitNames r)) (splitNames r)).zip
        (asCells (mylen (splitDates r)) (splitDates r))).length := by
      rw [List.length_zip, hAlen, hBlen]
      simpa using hj
    refine ⟨_, List.mem_map_of_mem _ (List.get_mem _ j hjz), rfl, ?_⟩
    show ((((asCells (mylen (splitNames r)) (splitNames r)).zip
        (asCells (mylen (splitDates r)) (splitDates r))).get ⟨j, hjz⟩).1 = some n)
    rw [List.get_eq_getElem, List.getElem_zip]
    simp only [hA, List.getElem_map]
    rw [hjn]
  · cases h

theorem explodeGo_row :
    ∀ (rs : List Record) (i : Nat) (es : List Entry),
      explodeGo i rs = .ok es → ∀ j r, rs.get? j = some r →
        ∃ l, explodeRow (i + j) r = .ok l ∧ ∀ e ∈ l, e ∈ es := by
  intro rs
  induction rs with
  | nil => intro i es _ j r hr; cases j <;> cases hr
  | cons a as ih =>
    intro i es h j r hr
    rw [explodeGo] at h
    rcases ha : explodeRow i a with msg | l <;> rw [ha] at h
    · cases h
    rcases hg : explodeGo (i + 1) as with msg | ls <;> rw [hg] at h
    · cases h
    cases h
    cases j with
    | zero =>
      cases hr
      exact ⟨l, by simpa using ha, fun e he => List.mem_append_left _ he⟩
    | succ j' =>
      rcases ih (i + 1) ls hg j' r (by simpa using hr) with ⟨l', hl', hmem⟩
      exact ⟨l', by rw [show i + (j' + 1) = i + 1 + j' by omega]; exact hl',
        fun e he => List.mem_append_right _ (hmem e he)⟩

theorem explodeGo_mem :
    ∀ (rs : List Record) (i : Nat) (es : List Entry),
      explodeGo i rs = .ok es → ∀ e ∈ es, ∃ j r l,
        rs.get? j = some r ∧ explodeRow (i + j) r = .ok l ∧ e ∈ l := by
  intro rs
  induction rs with
  | nil =>
    intro i es h e he
    rw [explodeGo] at h
    cases h
    cases he
  | cons a as ih =>
    intro i es h e he
    rw [explodeGo] at h
    rcases ha : explodeRow i a with msg | l <;> rw [ha] at h
    · cases h
    rcases hg : explodeGo (i + 1) as with msg | ls <;> rw [hg] at h
    · cases h
    cases h
    rcases List.mem_append.mp he with hel | hels
    · exact ⟨0, a, l, rfl, by simpa using ha, hel⟩
    · rcases ih (i + 1) ls hg e hels with ⟨j, r, l', hr, hl', hmem⟩
      exact ⟨j + 1, r, l', by simpa using hr,
        by rw [show i + (j + 1) = i + 1 + j by omega]; exact hl', hmem⟩

/-- Every exploded entry originates from the row its index points at. -/
theorem explodeAll_origin {rs : List Record} {es : List Entry}
    (h : explodeAll rs = .ok es) :
    ∀ e ∈ es, ∃ r l, rs.get? e.idx = some r ∧ explodeRow e.idx r = .ok l ∧ e ∈ l := by
  intro e he
  rcases explodeGo_mem rs 0 es h e he with ⟨j, r, l, hr, hl, hmem⟩
  have hidx : e.idx = j := by
    have := explodeRow_idx hl e hmem
    simpa using this
  rw [hidx]
  exact ⟨r, l, hr, by simpa using hl, hmem⟩

theorem explodeAll_row {rs : List Record} {es : List Entry}
    (h : explodeAll rs = .ok es) (j : Nat) (r : Record) (hr : rs.get? j = some r) :
    ∃ l, explodeRow j r = .ok l ∧ ∀ e ∈ l, e ∈ es := by
  rcases explodeGo_row rs 0 es h j r hr with ⟨l, hl, hmem⟩
  exact ⟨l, by simpa using hl, hmem⟩

theorem mem_sortEntries {es : List PEntry} {e : PEntry} :
    e ∈ sortEntries es ↔ e ∈ es := by
  unfold sortEntries
  exact List.mem_insertionSort EntLE

theorem mem_resolveDates {es : List PEntry} {e : PEntry}
    (h : e ∈ resolveDates es) : e ∈ es :=
  mem_sortEntries.mp (mem_dropDupKeepLast eKey _ e h)

theorem parseEntry_idx (e : Entry) : (parseEntry e).idx = e.idx := rfl

theorem parseEntry_name (e : Entry) : (parseEntry e).name = e.name := rfl

/-- Each `(index, event name)` key present in the parsed entries survives in
exactly one entry of the duplicate-resolved frame. -/
theorem resolveDates_unique {es : List PEntry} {k : Nat × Option String}
    (h : k ∈ es.map eKey) :
    ((resolveDates es).filter (fun e => decide (eKey e = k))).length = 1 := by
  apply dropDupKeepLast_filter_length
  rcases List.mem_map.mp h with ⟨e, he, hk⟩
  exact List.mem_map.mpr ⟨e, mem_sortEntries.mpr he, hk⟩

/-- A surviving entry is, in the `sort_values` order, above every entry of
the frame that shares its `(index, event name)` key. -/
theorem resolveDates_ge {es : List PEntry} {s e : PEntry}
    (hs : s ∈ resolveDates es) (he : e ∈ es) (hk : eKey e = eKey s) :
    EntLE e s := by
  refine dropDupKeepLast_ge eKey (fun a => ?_) (sortEntries es) ?_ s hs e
    (mem_sortEntries.mpr he) hk
  · rcases IsTotal.total (r := EntLE) a a with h | h <;> exact h
  · exact List.sorted_insertionSort EntLE es

/-! ## Supporting lemmas for the alignment and validation claims -/

theorem setEqB_iff (a b : List String) :
    setEqB a b = true ↔ (∀ x ∈ a, x ∈ b) ∧ ∀ x ∈ b, x ∈ a := by
  unfold setEqB
  rw [Bool.and_eq_true, List.all_eq_true, List.all_eq_true]
  constructor
  · rintro ⟨h1, h2⟩
    exact ⟨fun x hx => List.elem_iff.mp (h1 x hx), fun x hx => List.elem_iff.mp (h2 x hx)⟩
  · rintro ⟨h1, h2⟩
    exact ⟨fun x hx => List.elem_iff.mpr (h1 x hx), fun x hx => List.elem_iff.mpr (h2 x hx)⟩

theorem splitGo_ne_nil (sep : List Char) :
    ∀ (fuel : Nat) (acc s : List Char), splitGo sep fuel acc s ≠ [] := by
  intro fuel
  induction fuel with
  | zero => intro acc s; cases s <;> simp [splitGo]
  | succ f ih =>
    intro acc s
    cases s with
    | nil => simp [splitGo]
    | cons c rest =>
      rw [splitGo]
      split
      · simp
      · exact ih _ _

theorem pySplit_ne_nil (sep s : String) : pySplit sep s ≠ [] := by
  unfold pySplit
  intro h
  exact splitGo_ne_nil sep.toList s.toList.length [] s.toList (List.map_eq_nil_iff.mp h)

theorem mylen_pySplit (sep s : String) :
    mylen (some (pySplit sep s)) = (pySplit sep s).length := by
  show (if (pySplit sep s).length = 0 then 1 else (pySplit sep s).length) = _
  rw [if_neg]
  intro h
  exact pySplit_ne_nil sep s (List.length_eq_zero.mp h)

theorem explodeRow_error_msg {i : Nat} {r : Record} {msg : String}
    (h : explodeRow i r = .error msg) : msg = mismatchMsg := by
  unfold explodeRow at h
  split at h
  · cases h
  · cases h; rfl

theorem explodeGo_shape : ∀ (rs : List Record) (i : Nat),
    (∃ es, explodeGo i rs = .ok es) ∨ explodeGo i rs = .error mismatchMsg := by
  intro rs
  induction rs with
  | nil => intro i; exact .inl ⟨[], rfl⟩
  | cons r rs ih =>
    intro i
    rw [explodeGo]
    rcases ha : explodeRow i r with msg | l
    · right
      rw [explodeRow_error_msg ha]
    · rcases ih (i + 1) with ⟨es, hg⟩ | hg <;> rw [hg]
      · exact .inl ⟨l ++ es, rfl⟩
      · exact .inr rfl

theorem explodeAll_aligned {rs : List Record} {es : List Entry}
    (h : explodeAll rs = .ok es) :
    ∀ r ∈ rs, mylen (splitNames r) = mylen (splitDates r) := by
  intro r hr
  rcases List.mem_iff_get?.mp hr with ⟨j, hj⟩
  rcases explodeAll_row h j r hj with ⟨l, hl, _⟩
  exact (explodeRow_ok_iff j r).mp ⟨l, hl⟩

/-! ## Concrete inputs for scenarios, witnesses and counterexamples -/

def vocabDetails : Details :=
  { url := registryBase ++ "/search/1"
  , title := "Evaluation A"
  , description := some "A."
  , fields :=
    [ ("Lead department", "Closed organisation: Department X")
    , ("Other departments", "Department Y")
    , ("Evaluation types",
       "Impact evaluation, Process evaluation, Value for money evaluation, Other")
    , ("Event Name",
       "Intervention start date, Intervention end date, Evaluation start, Evaluation end, Final data analysis end, Publication of interim results, Publication of final results, Not Set, Other")
    , ("Event date",
       "January 2020, February 2020, March 2020, April 2020, May 2020, June 2020, July 2020, August 2020, Not set") ] }

def nfDetails : Details :=
  { url := registryBase ++ "/search/404"
  , title := "Page not found"
  , description := none
  , fields := [] }

def scnDetails : Details :=
  { url := registryBase ++ "/search/2"
  , title := "Evaluation B"
  , description := some "B."
  , fields :=
    [ ("Event Name", "Evaluation start, Evaluation start")
    , ("Event date", "January 2024, March 2024") ] }

def mainInput : List Details := [vocabDetails, nfDetails, scnDetails]

/-- A scraped column layout: `url`, `title`, `description` first (the keys
`get_details` always sets), then the summary-row labels. -/
def baseCols : List String :=
  ["url", "title", "description", "Lead department", "Other departments",
   "Evaluation types", "Event Name", "Event date"]

set_option maxRecDepth 10000

/-! ## Claim C7 -/

/-- The character-list form of `sep.join(segments)`. -/
def interAux (repl : List Char) : List (List Char) → List Char
  | [] => []
  | [x] => x
  | x :: y :: rest => x ++ repl ++ interAux repl (y :: rest)

/-- Python `sep.join(pieces)`. -/
def pyJoin (sep : String) : List String → String
  | [] => ""
  | [x] => x
  | x :: y :: rest => x ++ sep ++ pyJoin sep (y :: rest)

theorem interAux_cons {repl : List Char} (x : List Char) {L : List (List Char)}
    (h : L ≠ []) : interAux repl (x :: L) = x ++ repl ++ interAux repl L := by
  cases L with
  | nil => exact absurd rfl h
  | cons y rest => rfl

/-- `replGo` and `splitGo` discover the same occurrences: joining the split
segments with the replacement text reproduces the replacement result. -/
theorem interAux_splitGo_eq (p : Char) (ps repl : List Char) :
    ∀ (fuel : Nat) (s acc : List Char),
      interAux repl (splitGo (p :: ps) fuel acc s)
        = acc.reverse ++ replGo (p :: ps) repl fuel s := by
  intro fuel
  induction fuel with
  | zero =>
    intro s acc
    cases s with
    | nil => simp [splitGo, replGo, interAux]
    | cons c rest => simp [splitGo, replGo, interAux]
  | succ f ih =>
    intro s acc
    cases s with
    | nil => simp [splitGo, replGo, interAux]
    | cons c rest =>
      rcases hpre : (p :: ps).isPrefixOf (c :: rest) with _ | _
      · simp only [splitGo, replGo, hpre, Bool.false_eq_true, if_false]
        rw [ih rest (c :: acc)]
        simp
      · simp only [splitGo, replGo, hpre, if_true]
        rw [interAux_cons _ (splitGo_ne_nil _ _ _ _)]
        rw [ih _ []]
        simp

theorem pyJoin_map_mk (sep : String) :
    ∀ L : List (List Char),
      pyJoin sep (L.map (fun l => String.mk l)) = String.mk (interAux sep.toList L) := by
  intro L
  induction L with
  | nil => rfl
  | cons x rest ih =>
    cases rest with
    | nil => rfl
    | cons y t =>
      show String.mk x ++ sep ++ pyJoin sep ((y :: t).map (fun l => String.mk l))
        = String.mk (x ++ sep.toList ++ interAux sep.toList (y :: t))
      rw [ih]
      cases sep
      rfl

/-- The Python identity `s.replace(a, b) = b.join(s.split(a))` for a
non-empty pattern: `str.replace` replaces every occurrence found by the
left-to-right non-overlapping scan, not just the first. -/
theorem pyReplace_eq_join_split (s pat repl : String) (hp : pat.toList ≠ []) :
    pyReplace s pat repl = pyJoin repl (pySplit pat s) := by
  obtain ⟨p, ps, hps⟩ : ∃ p ps, pat.toList = p :: ps := by
    match h : pat.toList, hp with
    | p :: ps, _ => exact ⟨p, ps, rfl⟩
  unfold pyReplace pySplit
  rw [pyJoin_map_mk, hps, interAux_splitGo_eq]
  simp

/-- C7 counterexample: a value that merely CONTAINS "Closed organisation: "
mid-string - without starting with it - is changed by the Table Normalizer
("Other departments" is `", "`-joined, so such values arise), contradicting
the claim that a value is left unchanged unless it starts with the prefix. -/
theorem C7_counterexample :
    closedOrgMarker.toList.isPrefixOf
      "Department A, Closed organisation: Department B".toList = false ∧
    stripClosedOrg (some "Department A, Closed organisation: Department B")
      = some "Department A, Department B" := by
  exact ⟨by decide, by decide⟩

/-- C7 (amended): the two organisational columns go through Python
`str.replace("Closed organisation: ", "")`, which removes every occurrence
of the marker anywhere in the value, not only a leading one: for EVERY
value, the result is the concatenation of the segments between the
occurrences found by the left-to-right scan (replace = join of split).  In
particular a value that is the marker followed by marker-free text is
stripped to that text (so "Closed organisation: Department X" becomes
"Department X"), a value containing no occurrence is unchanged, a value
with several occurrences loses all of them, and a null cell stays null. -/
theorem C7_strip_closed_org (w : String)
    (hw : pyContainsL closedOrgMarker.toList w.toList = false) :
    stripClosedOrg (some (String.mk (closedOrgMarker.toList ++ w.toList))) = some w ∧
    stripClosedOrg (some w) = some w ∧
    stripClosedOrg none = none ∧
    (∀ v : String, stripClosedOrg (some v)
        = some (pyJoin "" (pySplit closedOrgMarker v))) ∧
    stripClosedOrg (some "Closed organisation: Department X") = some "Department X" ∧
    stripClosedOrg (some "Closed organisation: A, Closed organisation: B, C")
      = some "A, B, C" := by
  refine ⟨?_, ?_, rfl, ?_, by decide, by decide⟩
  · show some (pyReplace (String.mk (closedOrgMarker.toList ++ w.toList))
        closedOrgMarker "") = some w
    rw [pyReplace_strips_leading closedOrgMarker w (by decide) hw]
  · show some (pyReplace w closedOrgMarker "") = some w
    rw [pyReplace_of_not_contains w closedOrgMarker "" hw]
  · intro v
    show some (pyReplace v closedOrgMarker "") = _
    rw [pyReplace_eq_join_split v closedOrgMarker "" (by decide)]

theorem C7_strip_closed_org_witness :
    pyContainsL closedOrgMarker.toList "Department X".toList = false ∧
    stripClosedOrg (some (String.mk (closedOrgMarker.toList ++ "Department X".toList)))
      = some "Department X" :=
  ⟨by decide, (C7_strip_closed_org "Department X" (by decide)).1⟩

/-! ## Claim C2 -/

theorem explodeAll_error_msg {rs : List Record} {m : String}
    (h : explodeAll rs = .error m) : m = mismatchMsg := by
  rcases explodeGo_shape rs 0 with ⟨es, hok⟩ | herr
  · rw [show explodeAll rs = explodeGo 0 rs from rfl, hok] at h
    cases h
  · rw [show explodeAll rs = explodeGo 0 rs from rfl, herr] at h
    rw [Except.error.injEq] at h
    exact h.symm

def c2Details : Details :=
  { url := registryBase ++ "/search/3"
  , title := "Evaluation D"
  , description := some "D."
  , fields :=
    [ ("Lead department", "Cabinet Office")
    , ("Other departments", "None")
    , ("Evaluation types", "Impact evaluation")
    , ("Event Name", "Evaluation start")
    , ("Event date", "January 2024") ] }

/-- C2 counterexample: a record carrying every column the script touches
(so the run passes the column accesses at the prefix strip and the
whitespace cleanup and genuinely reaches the first assert), whose only
observed evaluation type is "Impact evaluation" and only observed event
name is "Evaluation start": every observed value lies inside its
vocabulary, yet the run aborts at the evaluation-types assert - the assert
demands set EQUALITY with the vocabulary, so a vocabulary entry that never
occurs in the data is also fatal.  This refutes the claimed "aborts if and
only if some value lies outside the vocabulary". -/
theorem C2_counterexample :
    (∀ v ∈ observedEvalTypes (cleanRecords [c2Details]), v ∈ expectedEvaluationTypes) ∧
    (∀ v ∈ observedEventNames (cleanRecords [c2Details]), v ∈ expectedEventNames) ∧
    (hasCol [c2Details] "Lead department" = true ∧
     hasCol [c2Details] "Other departments" = true ∧
     hasCol [c2Details] "Evaluation types" = true ∧
     hasCol [c2Details] "Event Name" = true ∧
     hasCol [c2Details] "Event date" = true) ∧
    normalizeTable [c2Details] = .error evalTypesErr :=
  ⟨by decide, by decide, by decide, by decide⟩

/-- C2 (amended): on a table carrying the columns the script accesses
before and between the asserts, the run aborts at vocabulary validation
(with one of the two assertion messages) if and only if, for one of the two
closed vocabularies, the set of values observed in the split non-null cells
differs AS A SET from the vocabulary: both an out-of-vocabulary value and a
vocabulary entry absent from the whole dataset are fatal; when both
observed sets equal their vocabularies, validation passes and the run
continues past the asserts. -/
theorem C2_vocabulary_validation (input : List Details)
    (h1 : hasCol input "Lead department" = true)
    (h2 : hasCol input "Other departments" = true)
    (h3 : hasCol input "Evaluation types" = true)
    (h4 : hasCol input "Event Name" = true) :
    (normalizeTable input = .error evalTypesErr ∨
     normalizeTable input = .error eventNamesErr) ↔
      ¬ ((∀ v ∈ observedEvalTypes (cleanRecords input), v ∈ expectedEvaluationTypes) ∧
         (∀ t ∈ expectedEvaluationTypes, t ∈ observedEvalTypes (cleanRecords input)) ∧
         (∀ v ∈ observedEventNames (cleanRecords input), v ∈ expectedEventNames) ∧
         (∀ t ∈ expectedEventNames, t ∈ observedEventNames (cleanRecords input))) := by
  simp only [normalizeTable, h1, h2, h3, h4, if_true]
  by_cases hA : checkEvalTypes (cleanRecords input) = true
  · rw [if_pos hA]
    by_cases hB : checkEventNames (cleanRecords input) = true
    · rw [if_pos hB]
      constructor
      · rintro (h | h)
        · exfalso
          by_cases hc : hasCol input "Event date" = true
          · rw [if_pos hc] at h
            rcases he : explodeAll (cleanRecords input) with m | es <;> rw [he] at h
            · rw [Except.error.injEq] at h
              rw [explodeAll_error_msg he] at h
              exact (by decide : ¬ (mismatchMsg = evalTypesErr)) h
            · cases h
          · rw [if_neg hc] at h
            rw [Except.error.injEq] at h
            exact (by decide : ¬ ("KeyError: Event date" = evalTypesErr)) h
        · exfalso
          by_cases hc : hasCol input "Event date" = true
          · rw [if_pos hc] at h
            rcases he : explodeAll (cleanRecords input) with m | es <;> rw [he] at h
            · rw [Except.error.injEq] at h
              rw [explodeAll_error_msg he] at h
              exact (by decide : ¬ (mismatchMsg = eventNamesErr)) h
            · cases h
          · rw [if_neg hc] at h
            rw [Except.error.injEq] at h
            exact (by decide : ¬ ("KeyError: Event date" = eventNamesErr)) h
      · intro hns
        exfalso
        apply hns
        rw [checkEvalTypes, setEqB_iff] at hA
        rw [checkEventNames, setEqB_iff] at hB
        exact ⟨hA.1, hA.2, hB.1, hB.2⟩
    · rw [if_neg hB]
      constructor
      · rintro _ ⟨_, _, c3, c4⟩
        exact hB (by rw [checkEventNames, setEqB_iff]; exact ⟨c3, c4⟩)
      · intro _
        right
        rfl
  · rw [if_neg hA]
    constructor
    · rintro _ ⟨c1, c2, _, _⟩
      exact hA (by rw [checkEvalTypes, setEqB_iff]; exact ⟨c1, c2⟩)
    · intro _
      left
      rfl

theorem C2_vocabulary_validation_witness :
    (normalizeTable [c2Details] = .error evalTypesErr ∨
     normalizeTable [c2Details] = .error eventNamesErr) ↔
      ¬ ((∀ v ∈ observedEvalTypes (cleanRecords [c2Details]),
            v ∈ expectedEvaluationTypes) ∧
         (∀ t ∈ expectedEvaluationTypes,
            t ∈ observedEvalTypes (cleanRecords [c2Details])) ∧
         (∀ v ∈ observedEventNames (cleanRecords [c2Details]),
            v ∈ expectedEventNames) ∧
         (∀ t ∈ expectedEventNames,
            t ∈ observedEventNames (cleanRecords [c2Details]))) :=
  C2_vocabulary_validation [c2Details] (by decide) (by decide) (by decide) (by decide)


/-! ## Claim C10 -/

/-- C10: if any row has non-null "Event Name" and "Event date" whose
`", "`-split entry counts differ, the multi-column explode raises
`ValueError("columns must have matching element counts")` before producing
any exploded output; and whenever the explode completes, every row with both
fields non-null has split lists of equal length. -/
theorem C10_explode_alignment (rs : List Record) :
    (∀ j r s₁ s₂, rs.get? j = some r →
       r.eventName = some s₁ → r.eventDate = some s₂ →
       (pySplit ", " s₁).length ≠ (pySplit ", " s₂).length →
       explodeAll rs = .error mismatchMsg) ∧
    (∀ es, explodeAll rs = .ok es →
       ∀ r ∈ rs, ∀ s₁ s₂, r.eventName = some s₁ → r.eventDate = some s₂ →
         (pySplit ", " s₁).length = (pySplit ", " s₂).length) := by
  have key : ∀ es, explodeAll rs = .ok es →
      ∀ r ∈ rs, ∀ s₁ s₂, r.eventName = some s₁ → r.eventDate = some s₂ →
        (pySplit ", " s₁).length = (pySplit ", " s₂).length := by
    intro es hok r hr s₁ s₂ h₁ h₂
    have hm := explodeAll_aligned hok r hr
    have e1 : splitNames r = some (pySplit ", " s₁) := by
      unfold splitNames; rw [h₁]; rfl
    have e2 : splitDates r = some (pySplit ", " s₂) := by
      unfold splitDates; rw [h₂]; rfl
    rw [e1, e2, mylen_pySplit, mylen_pySplit] at hm
    exact hm
  refine ⟨?_, key⟩
  intro j r s₁ s₂ hj h₁ h₂ hne
  rcases explodeGo_shape rs 0 with ⟨es, hok⟩ | herr
  · exact absurd (key es hok r (List.get?_mem hj) s₁ s₂ h₁ h₂) hne
  · exact herr

def badRec : Record :=
  { url := "u", title := "t", description := none, leadDepartment := none,
    otherDepartments := none, evaluationTypes := none,
    eventName := some "Evaluation start, Evaluation end",
    eventDate := some "January 2024" }

theorem C10_explode_alignment_witness :
    explodeAll [badRec] = .error mismatchMsg ∧
    (∀ es, explodeAll [badRec] = .ok es → False) := by
  have h1 := (C10_explode_alignment [badRec]).1 0 badRec
    "Evaluation start, Evaluation end" "January 2024" rfl rfl rfl (by decide)
  refine ⟨h1, fun es hes => ?_⟩
  rw [h1] at hes
  cases hes

/-! ## Claim C9 -/

/-- C9 counterexample: running the column transformations on a scraped
layout succeeds, but re-running them on their own output aborts at the very
first evaluation-type column insertion (`DataFrame.insert` raises when the
column already exists) - re-running is an error, not a no-op. -/
theorem C9_counterexample :
    layoutPipeline baseCols = .ok
      ["url", "title", "description", "Lead department", "Other departments",
       "Evaluation types", "Impact evaluation", "Process evaluation",
       "Value for money evaluation", "Other", "Event Name", "Event date",
       "Event Name duplicated", "Event - Intervention start date",
       "Event - Intervention end date", "Event - Evaluation start",
       "Event - Evaluation end", "Event - Final data analysis end",
       "Event - Publication of interim results",
       "Event - Publication of final results", "Event - Not Set",
       "Event - Other"] ∧
    layoutPipeline
      ["url", "title", "description", "Lead department", "Other departments",
       "Evaluation types", "Impact evaluation", "Process evaluation",
       "Value for money evaluation", "Other", "Event Name", "Event date",
       "Event Name duplicated", "Event - Intervention start date",
       "Event - Intervention end date", "Event - Evaluation start",
       "Event - Evaluation end", "Event - Final data analysis end",
       "Event - Publication of interim results",
       "Event - Publication of final results", "Event - Not Set",
       "Event - Other"]
      = .error "cannot insert Impact evaluation, already exists" :=
  ⟨by decide, by decide⟩

/-- C9 (amended): re-running the Table Normalizer and Event Timeline
Reshaper on their own output is not a no-op but an abort: on any table that
already carries an evaluation-type boolean column, the normalizer's column
insertion fails (pandas `insert` raises on an existing column), so the whole
column pipeline errors out.  The row-level steps alone are idempotent: the
not-found filter and the exact-duplicate drop leave an already filtered,
already deduplicated row list unchanged. -/
theorem C9_rerun_aborts (cols : List String) (hcol : "Impact evaluation" ∈ cols) :
    (∃ msg, insertEvalTypeCols cols = .error msg) ∧
    (∃ msg, layoutPipeline cols = .error msg) ∧
    (∀ rows : List Record,
      dropDupKeepFirst (dropDupKeepFirst rows) = dropDupKeepFirst rows) ∧
    (∀ rows : List Record,
      (rows.filter (fun w => !(w.title == "Page not found"))).filter
        (fun w => !(w.title == "Page not found")) =
      rows.filter (fun w => !(w.title == "Page not found"))) := by
  have hci : ∀ pos, colInsert cols pos "Impact evaluation"
      = .error ("cannot insert " ++ "Impact evaluation" ++ ", already exists") := by
    intro pos
    unfold colInsert
    rw [if_pos hcol]
  have hseq : ∀ pos, insertSeq pos cols expectedEvaluationTypes
      = .error ("cannot insert " ++ "Impact evaluation" ++ ", already exists") := by
    intro pos
    show insertSeq pos cols ("Impact evaluation" :: _) = _
    rw [insertSeq, hci pos]
  have hietc : ∃ msg, insertEvalTypeCols cols = .error msg := by
    unfold insertEvalTypeCols
    rcases hg : getLoc cols "Evaluation types" with m | pos
    · exact ⟨m, rfl⟩
    · exact ⟨_, hseq (pos + 1)⟩
  refine ⟨hietc, ?_, ?_, ?_⟩
  · rcases hietc with ⟨m, hm⟩
    refine ⟨m, ?_⟩
    unfold layoutPipeline
    rw [hm]
    rfl
  · intro rows
    exact dropDupKeepFirst_idem rows
  · intro rows
    rw [List.filter_filter]
    apply List.filter_congr
    intro a _
    rw [Bool.and_self]

theorem C9_rerun_aborts_witness :
    ∃ msg, layoutPipeline ["Evaluation types", "Impact evaluation",
      "Process evaluation", "Value for money evaluation", "Other"] = .error msg :=
  (C9_rerun_aborts ["Evaluation types", "Impact evaluation",
    "Process evaluation", "Value for money evaluation", "Other"] (by decide)).2.1

/-! ## Claim C6 -/

theorem cleanRecord_title (r : Record) : (cleanRecord r).title = r.title := rfl

theorem mem_cleanRecords_title {input : List Details} {r : Record}
    (h : r ∈ cleanRecords input) : r.title ≠ "Page not found" := by
  unfold cleanRecords at h
  rcases List.mem_map.mp h with ⟨r₀, hr₀, rfl⟩
  have hsub : r₀ ∈ (input.map toRecord).filter
      (fun r => !(r.title == "Page not found")) :=
    (ddkfGo_sublist _ []).subset hr₀
  have hp := List.of_mem_filter hsub
  rw [cleanRecord_title]
  simpa using hp

/-- Shape of a successful pipeline run: validation and explode succeeded and
the rows are the per-index built rows over the cleaned records. -/
theorem normalizeTable_rows {input : List Details} {rows : List NormRow}
    (h : normalizeTable input = .ok rows) :
    ∃ es, explodeAll (cleanRecords input) = .ok es ∧
      rows = (cleanRecords input).enum.map
        (fun p => buildRow (resolveDates (parseEntries es)) p.1 p.2) := by
  simp only [normalizeTable] at h
  split at h
  case isFalse => cases h
  split at h
  case isFalse => cases h
  split at h
  case isFalse => cases h
  split at h
  case isFalse => cases h
  split at h
  case isFalse => cases h
  split at h
  case isFalse => cases h
  split at h
  case isFalse => cases h
  rcases he : explodeAll (cleanRecords input) with m | es <;> rw [he] at h
  · cases h
  · rw [Except.ok.injEq] at h
    exact ⟨es, rfl, h.symm⟩

theorem normalizeTable_get? {input : List Details} {rows : List NormRow}
    (h : normalizeTable input = .ok rows)
    {i : Nat} {row : NormRow} (hrow : rows.get? i = some row) :
    ∃ es r, explodeAll (cleanRecords input) = .ok es ∧
      (cleanRecords input).get? i = some r ∧
      row = buildRow (resolveDates (parseEntries es)) i r := by
  rcases normalizeTable_rows h with ⟨es, hes, rfl⟩
  rw [List.get?_map, List.enum_get?] at hrow
  rcases hr : (cleanRecords input).get? i with _ | r
  · rw [hr] at hrow; cases hrow
  · rw [hr] at hrow
    simp only [Option.map_some', Option.some.injEq] at hrow
    exact ⟨es, r, hes, rfl, hrow.symm⟩

/-- C6: for a detail page whose extracted title is the "Page not found"
sentinel, the Record Extractor returns immediately with only the url and
title populated (no description, no summary-row fields), and every run of
the normalization pipeline produces a table in which no row carries the
sentinel title. -/
theorem C6_not_found (pathPart : String) (p : Page)
    (hp : p.heading = "Page not found")
    (input : List Details) (rows : List NormRow)
    (hok : normalizeTable input = .ok rows) :
    getDetails pathPart p =
      { url := registryBase ++ pathPart, title := "Page not found",
        description := none, fields := [] } ∧
    ∀ row ∈ rows, row.record.title ≠ "Page not found" := by
  constructor
  · unfold getDetails
    rw [hp, if_pos rfl]
  · intro row hrow
    rcases normalizeTable_rows hok with ⟨es, hes, rfl⟩
    rcases List.mem_map.mp hrow with ⟨q, hq, rfl⟩
    show q.2.title ≠ "Page not found"
    exact mem_cleanRecords_title (List.snd_mem_of_mem_enum hq)

def nfPage : Page :=
  { url := registryBase ++ "/search/404"
  , heading := "Page not found"
  , bodyPara := "ignored"
  , summaryRows := [("Lead department", "ignored")] }

theorem C6_not_found_witness :
    getDetails "/search/404" nfPage =
      { url := registryBase ++ "/search/404", title := "Page not found",
        description := none, fields := [] } ∧
    ∀ row ∈ (normalizeTable mainInput).toOption.getD [],
      row.record.title ≠ "Page not found" :=
  C6_not_found "/search/404" nfPage rfl mainInput
    ((normalizeTable mainInput).toOption.getD []) (by decide)

/-! ## Claim C4 -/

/-- A populated pivot cell for `(row i, event name n)` can only come from an
entry exploded out of row `i`, whose split Event Name list contains `n`. -/
theorem pivotCell_origin {rs : List Record} {es : List Entry} {i : Nat} {n : String}
    (hex : explodeAll rs = .ok es)
    (hne : pivotCell (resolveDates (parseEntries es)) i n ≠ none) :
    ∃ r names, rs.get? i = some r ∧ splitNames r = some names ∧ n ∈ names := by
  unfold pivotCell at hne
  rcases hf : (resolveDates (parseEntries es)).find?
      (fun e => decide (e.idx = i) && decide (e.name = some n)) with _ | e
  · rw [hf] at hne; exact absurd rfl hne
  · have hmem := List.mem_of_find?_eq_some hf
    have hpred := List.find?_some hf
    rw [Bool.and_eq_true, decide_eq_true_eq, decide_eq_true_eq] at hpred
    obtain ⟨hidx, hname⟩ := hpred
    have he' : e ∈ parseEntries es := mem_resolveDates hmem
    rcases List.mem_map.mp he' with ⟨e₀, he₀, heq⟩
    have hidx₀ : e₀.idx = i := by rw [← parseEntry_idx, heq, hidx]
    have hname₀ : e₀.name = some n := by rw [← parseEntry_name, heq, hname]
    rcases explodeAll_origin hex e₀ he₀ with ⟨r, l, hr, hl, hml⟩
    rcases explodeRow_name_mem hl e₀ hml n hname₀ with ⟨names, hs, hnn⟩
    exact ⟨r, names, by rw [← hidx₀]; exact hr, hs, hnn⟩

theorem dupFlag_eq_none {r : Record} (h : splitNames r = none) :
    dupFlag r = false := by
  unfold dupFlag; rw [h]

theorem dupFlag_eq_some {r : Record} {l : List String} (h : splitNames r = some l) :
    dupFlag r = decide (l.length ≠ l.dedup.length) := by
  unfold dupFlag; rw [h]

/-- C4: the "Event Name duplicated" flag of a row is true iff the row's
original split Event Name list is strictly longer than its number of
distinct values; a row with a null raw Event Name gets a false flag and
all-null pivoted event-date columns. -/
theorem C4_duplicate_flag (input : List Details) (rows : List NormRow)
    (hok : normalizeTable input = .ok rows)
    (i : Nat) (row : NormRow) (hrow : rows.get? i = some row) :
    (row.eventNameDuplicated = true ↔
      ∃ l, splitNames row.record = some l ∧ l.dedup.length < l.length) ∧
    (row.record.eventName = none →
      row.eventNameDuplicated = false ∧ ∀ d ∈ row.eventDates, d = none) := by
  rcases normalizeTable_get? hok hrow with ⟨es, r, hes, hr, rfl⟩
  constructor
  · show dupFlag r = true ↔ ∃ l, splitNames r = some l ∧ l.dedup.length < l.length
    rcases hs : splitNames r with _ | l
    · rw [dupFlag_eq_none hs]
      constructor
      · intro h; cases h
      · rintro ⟨l', hl', _⟩
        cases hl'
    · rw [dupFlag_eq_some hs, decide_eq_true_eq]
      have hle : l.dedup.length ≤ l.length := (List.dedup_sublist l).length_le
      constructor
      · intro h
        exact ⟨l, rfl, by omega⟩
      · rintro ⟨l', hl', hlt⟩
        rw [Option.some.injEq] at hl'
        rw [← hl'] at hlt
        omega
  · intro hev
    have hev' : r.eventName = none := hev
    have hs : splitNames r = none := by unfold splitNames; rw [hev']; rfl
    refine ⟨dupFlag_eq_none hs, ?_⟩
    intro d hd
    rcases List.mem_map.mp hd with ⟨n, _, rfl⟩
    by_contra hne
    rcases pivotCell_origin hes hne with ⟨r', names, hr', hs', _⟩
    rw [hr, Option.some.injEq] at hr'
    rw [← hr', hs] at hs'
    cases hs'

theorem C4_duplicate_flag_witness :
    ∃ row, ((normalizeTable mainInput).toOption.getD []).get? 1 = some row ∧
      (row.eventNameDuplicated = true ↔
        ∃ l, splitNames row.record = some l ∧ l.dedup.length < l.length) := by
  refine ⟨_, rfl, (C4_duplicate_flag mainInput
    ((normalizeTable mainInput).toOption.getD []) (by decide) 1 _ rfl).1⟩

/-! ## Claim C8 -/

theorem length_filterMap_eq_filter {β : Type} (f : String → Option β) :
    ∀ l : List String, (l.filterMap f).length
      = (l.filter (fun n => (f n).isSome)).length := by
  intro l
  induction l with
  | nil => rfl
  | cons a as ih =>
    rcases hf : f a with _ | b <;>
      simp [List.filterMap_cons, List.filter_cons, hf, ih]

theorem nodup_subset_length_le {l₁ l₂ : List String}
    (h₁ : l₁.Nodup) (hsub : ∀ x ∈ l₁, x ∈ l₂) : l₁.length ≤ l₂.length := by
  calc l₁.length = l₁.toFinset.card := (List.toFinset_card_of_nodup h₁).symm
    _ ≤ l₂.toFinset.card := Finset.card_le_card
        (fun x hx => List.mem_toFinset.mpr (hsub x (List.mem_toFinset.mp hx)))
    _ ≤ l₂.length := List.toFinset_card_le l₂

/-- C8: for every row of the normalized table, the number of non-null
"Event - " date columns is at most the number of distinct values in the
row's split raw Event Name list (zero for a null Event Name). -/
theorem C8_nonnull_dates_le_distinct (input : List Details) (rows : List NormRow)
    (hok : normalizeTable input = .ok rows)
    (i : Nat) (row : NormRow) (hrow : rows.get? i = some row) :
    (row.eventDates.filterMap id).length ≤
      ((splitNames row.record).getD []).dedup.length := by
  rcases normalizeTable_get? hok hrow with ⟨es, r, hes, hr, rfl⟩
  show ((expectedEventNames.map
      (fun n => pivotCell (resolveDates (parseEntries es)) i n)).filterMap id).length
    ≤ ((splitNames r).getD []).dedup.length
  rw [List.filterMap_map]
  show ((expectedEventNames.filterMap
      (fun n => pivotCell (resolveDates (parseEntries es)) i n)).length)
    ≤ ((splitNames r).getD []).dedup.length
  rw [length_filterMap_eq_filter]
  rcases hs : splitNames r with _ | names
  · have hnil : expectedEventNames.filter
        (fun n => (pivotCell (resolveDates (parseEntries es)) i n).isSome) = [] := by
      rw [List.filter_eq_nil_iff]
      intro n _ hp
      have hne : pivotCell (resolveDates (parseEntries es)) i n ≠ none :=
        Option.isSome_iff_ne_none.mp hp
      rcases pivotCell_origin hes hne with ⟨r', names', hr', hs', _⟩
      rw [hr, Option.some.injEq] at hr'
      rw [← hr', hs] at hs'
      cases hs'
    rw [hnil]
    exact Nat.zero_le _
  · show _ ≤ names.dedup.length
    refine nodup_subset_length_le (List.Nodup.filter _ (by decide)) ?_
    intro n hn
    obtain ⟨hmem, hp⟩ := List.mem_filter.mp hn
    have hne : pivotCell (resolveDates (parseEntries es)) i n ≠ none :=
      Option.isSome_iff_ne_none.mp hp
    rcases pivotCell_origin hes hne with ⟨r', names', hr', hs', hnn⟩
    rw [hr, Option.some.injEq] at hr'
    rw [← hr', hs, Option.some.injEq] at hs'
    refine List.mem_dedup.mpr ?_
    rw [hs']
    exact hnn

theorem C8_nonnull_dates_le_distinct_witness :
    ∃ row, ((normalizeTable mainInput).toOption.getD []).get? 0 = some row ∧
      (row.eventDates.filterMap id).length ≤
        ((splitNames row.record).getD []).dedup.length := by
  refine ⟨_, rfl, C8_nonnull_dates_le_distinct mainInput
    ((normalizeTable mainInput).toOption.getD []) (by decide) 0 _ rfl⟩

/-! ## Claim C1 -/

/-- C1: for every record and every event name occurring more than once in
its split Event Name list, exactly one entry with that `(row, name)` key
survives duplicate resolution, and the survivor's parsed date is maximal in
the ascending sort order used by the code (missing dates ordered last), i.e.
the survivor is the last entry after sorting the record's entries ascending
by date - so with all dates present the latest date wins.  The final closed
conjunct checks the spec scenario on the full pipeline: the row with raw
Event Name "Evaluation start, Evaluation start" and raw Event date
"January 2024, March 2024" gets duplicate flag `true` and value "2024-03" in
the "Event - Evaluation start" column (position 2 of the vocabulary-ordered
date columns). -/
theorem C1_latest_wins (rs : List Record) (es : List Entry)
    (hex : explodeAll rs = .ok es)
    (i : Nat) (r : Record) (hr : rs.get? i = some r)
    (names : List String) (hn : splitNames r = some names)
    (n : String) (hcount : 1 < names.count n) :
    ((resolveDates (parseEntries es)).filter
       (fun e => decide (eKey e = (i, some n)))).length = 1 ∧
    (∀ s ∈ resolveDates (parseEntries es), eKey s = (i, some n) →
       ∀ e ∈ parseEntries es, eKey e = (i, some n) → dleB e.date s.date = true) ∧
    (normalizeTable mainInput).map
      (fun rows => (rows.get? 1).map
        (fun w => (w.eventNameDuplicated, w.eventDates.get? 2)))
      = .ok (some (true, some (some "2024-03"))) := by
  have hmemn : n ∈ names := List.count_pos_iff_mem.mp (by omega)
  rcases explodeAll_row hex i r hr with ⟨l, hl, hsub⟩
  rcases explodeRow_mem_of_name hl hn hmemn with ⟨e₀, he₀, hidx₀, hname₀⟩
  have he₀es : e₀ ∈ es := hsub e₀ he₀
  have hkey : (i, some n) ∈ (parseEntries es).map eKey := by
    refine List.mem_map.mpr ⟨parseEntry e₀, List.mem_map_of_mem _ he₀es, ?_⟩
    unfold eKey
    rw [parseEntry_idx, parseEntry_name, hidx₀, hname₀]
  refine ⟨resolveDates_unique hkey, ?_, by decide⟩
  intro s hs hks e he hke
  have hle : EntLE e s := resolveDates_ge hs he (by rw [hke, hks])
  unfold EntLE entLEB at hle
  rw [Bool.or_eq_true, Bool.and_eq_true] at hle
  have hei : e.idx = i := congrArg Prod.fst hke
  have hsi : s.idx = i := congrArg Prod.fst hks
  rcases hle with hlt | ⟨_, hd⟩
  · rw [decide_eq_true_eq] at hlt
    omega
  · exact hd

def scnRecClean : Record :=
  { url := registryBase ++ "/search/2", title := "Evaluation B",
    description := some "B.", leadDepartment := none, otherDepartments := none,
    evaluationTypes := none,
    eventName := some "Evaluation start, Evaluation start",
    eventDate := some "January 2024, March 2024" }

theorem C1_latest_wins_witness :
    ((resolveDates (parseEntries
        ((explodeAll (cleanRecords mainInput)).toOption.getD []))).filter
       (fun e => decide (eKey e = (1, some "Evaluation start")))).length = 1 :=
  (C1_latest_wins (cleanRecords mainInput)
    ((explodeAll (cleanRecords mainInput)).toOption.getD []) (by decide)
    1 scnRecClean (by decide)
    ["Evaluation start", "Evaluation start"] (by decide)
    "Evaluation start" (by decide)).1

/-! ## Layout lemmas -/

theorem colInsert_ok {cols : List String} {pos : Nat} {name : String}
    (h1 : name ∉ cols) (h2 : pos ≤ cols.length) :
    colInsert cols pos name = .ok (cols.take pos ++ name :: cols.drop pos) := by
  unfold colInsert
  rw [if_neg h1, if_neg (by omega)]

theorem getLoc_ok {cols : List String} {name : String} (h : name ∈ cols) :
    getLoc cols name = .ok (locOf name cols) := by
  unfold getLoc
  rw [if_pos h]

theorem setCol_of_not_mem {cols : List String} {name : String} (h : name ∉ cols) :
    setCol cols name = cols ++ [name] := by
  unfold setCol
  rw [if_neg h]

theorem joinCols_ok {cols extra : List String} (h : ∀ c ∈ extra, c ∉ cols) :
    joinCols cols extra = .ok (cols ++ extra) := by
  unfold joinCols
  rw [if_neg]
  intro hc
  rcases List.any_eq_true.mp hc with ⟨c, hmem, hcont⟩
  exact h c hmem (List.elem_iff.mp hcont)

theorem selectCols_ok {cols wanted : List String} (h : ∀ c ∈ wanted, c ∈ cols) :
    selectCols cols wanted = .ok wanted := by
  unfold selectCols
  rw [if_pos]
  rw [List.all_eq_true]
  intro c hc
  exact List.elem_iff.mpr (h c hc)

theorem locOf_append_cons {a : String} (X Z : List String) (h : a ∉ X) :
    locOf a (X ++ a :: Z) = X.length := by
  induction X with
  | nil =>
    show (if a = a then 0 else locOf a Z + 1) = 0
    rw [if_pos rfl]
  | cons x xs ih =>
    have hxa : ¬ x = a := fun hc => h (hc ▸ List.mem_cons_self x xs)
    show (if x = a then 0 else locOf a (xs ++ a :: Z) + 1) = xs.length + 1
    rw [if_neg hxa, ih (fun hc => h (List.mem_cons_of_mem x hc))]

theorem take_append_cons {a : String} (X Z : List String) :
    (X ++ a :: Z).take (X.length + 1) = X ++ [a] := by
  rw [List.take_append_eq_append_take]
  rw [List.take_of_length_le (by omega), Nat.add_sub_cancel_left]
  rfl

theorem drop_append_cons {a : String} (X Z : List String) :
    (X ++ a :: Z).drop (X.length + 1) = Z := by
  rw [List.drop_append_eq_append_drop]
  rw [List.drop_of_length_le (by omega), Nat.add_sub_cancel_left]
  rfl

theorem insertSeq_ok : ∀ (ts A B : List String),
    ts.Nodup → (∀ t ∈ ts, t ∉ A ∧ t ∉ B) →
    insertSeq A.length (A ++ B) ts = .ok (A ++ ts ++ B) := by
  intro ts
  induction ts with
  | nil => intro A B _ _; simp [insertSeq]
  | cons t ts ih =>
    intro A B hnd hf
    rw [insertSeq]
    have h1 : t ∉ A ++ B := by
      have := hf t (List.mem_cons_self t ts)
      simp only [List.mem_append]
      tauto
    have h2 : A.length ≤ (A ++ B).length := by simp
    rw [colInsert_ok h1 h2, List.take_left, List.drop_left]
    show insertSeq (A.length + 1) (A ++ t :: B) ts = .ok (A ++ t :: ts ++ B)
    have hlen : A.length + 1 = (A ++ [t]).length := by simp
    rw [hlen, show A ++ t :: B = (A ++ [t]) ++ B by simp]
    rw [ih (A ++ [t]) B (List.Nodup.of_cons hnd) ?_]
    · congr 1
      simp
    · intro t' ht'
      obtain ⟨hfA, hfB⟩ := hf t' (List.mem_cons_of_mem t ht')
      have hne : t' ≠ t := by
        intro hc
        rw [hc] at ht'
        exact (List.nodup_cons.mp hnd).1 ht'
      refine ⟨?_, hfB⟩
      simp only [List.mem_append, List.mem_singleton]
      rintro (h | h)
      · exact hfA h
      · exact hne h

theorem insertEvalTypeCols_ok (A B : List String)
    (hA : "Evaluation types" ∉ A)
    (hf : ∀ t ∈ expectedEvaluationTypes, t ∉ A ∧ t ∉ B) :
    insertEvalTypeCols (A ++ "Evaluation types" :: B) = .ok
      (A ++ "Evaluation types" :: (expectedEvaluationTypes ++ B)) := by
  unfold insertEvalTypeCols
  have hmem : "Evaluation types" ∈ A ++ "Evaluation types" :: B := by simp
  rw [getLoc_ok hmem, locOf_append_cons A B hA]
  show insertSeq (A.length + 1) (A ++ "Evaluation types" :: B) expectedEvaluationTypes
    = .ok (A ++ "Evaluation types" :: (expectedEvaluationTypes ++ B))
  have hlen : A.length + 1 = (A ++ ["Evaluation types"]).length := by simp
  rw [hlen, show A ++ "Evaluation types" :: B = (A ++ ["Evaluation types"]) ++ B by simp]
  rw [insertSeq_ok expectedEvaluationTypes (A ++ ["Evaluation types"]) B (by decide) ?_]
  · congr 1
    simp
  · intro t ht
    obtain ⟨h1, h2⟩ := hf t ht
    have hne : t ≠ "Evaluation types" :=
      (by decide : ∀ x ∈ expectedEvaluationTypes, x ≠ "Evaluation types") t ht
    refine ⟨?_, h2⟩
    simp only [List.mem_append, List.mem_singleton]
    rintro (h | h)
    · exact h1 h
    · exact hne h

/-! ## Claim C3 -/

/-- C3: for every row and every Evaluation Type Vocabulary entry, the
entry's boolean column is null when the raw evaluation-types cell is null,
and otherwise true iff the entry's label occurs as a substring of the raw
(possibly multi-valued) evaluation-types string; and the four boolean
columns are inserted immediately after the raw "Evaluation types" column, in
vocabulary order. -/
theorem C3_eval_type_flags (input : List Details) (rows : List NormRow)
    (hok : normalizeTable input = .ok rows)
    (A B : List String) (hA : "Evaluation types" ∉ A)
    (hf : ∀ t ∈ expectedEvaluationTypes, t ∉ A ∧ t ∉ B) :
    (∀ row ∈ rows, ∀ j t, expectedEvaluationTypes.get? j = some t →
      (row.record.evaluationTypes = none → row.evalTypeFlags.get? j = some none) ∧
      (∀ s, row.record.evaluationTypes = some s →
        ∃ b, row.evalTypeFlags.get? j = some (some b) ∧ (b = true ↔ IsSubstring t s))) ∧
    insertEvalTypeCols (A ++ "Evaluation types" :: B) = .ok
      (A ++ "Evaluation types" :: (expectedEvaluationTypes ++ B)) := by
  refine ⟨?_, insertEvalTypeCols_ok A B hA hf⟩
  intro row hrow j t hjt
  rcases normalizeTable_rows hok with ⟨es, hes, rfl⟩
  rcases List.mem_map.mp hrow with ⟨q, hq, rfl⟩
  constructor
  · intro hnone
    have hn : q.2.evaluationTypes = none := hnone
    show (expectedEvaluationTypes.map
        (fun t => q.2.evaluationTypes.map (fun s => pyContains t s))).get? j = some none
    rw [List.get?_map, hjt, Option.map_some', hn]
    rfl
  · intro s hsome
    have hs : q.2.evaluationTypes = some s := hsome
    refine ⟨pyContains t s, ?_, ?_⟩
    · show (expectedEvaluationTypes.map
          (fun t => q.2.evaluationTypes.map (fun s => pyContains t s))).get? j
        = some (some (pyContains t s))
      rw [List.get?_map, hjt, Option.map_some', hs]
      rfl
    · exact pyContains_iff_isSubstring t s

theorem C3_eval_type_flags_witness :
    (∀ row ∈ (normalizeTable mainInput).toOption.getD [],
      ∀ j t, expectedEvaluationTypes.get? j = some t →
      (row.record.evaluationTypes = none → row.evalTypeFlags.get? j = some none) ∧
      (∀ s, row.record.evaluationTypes = some s →
        ∃ b, row.evalTypeFlags.get? j = some (some b) ∧ (b = true ↔ IsSubstring t s))) ∧
    insertEvalTypeCols
      (["url", "title", "description", "Lead department", "Other departments"]
        ++ "Evaluation types" :: ["Event Name", "Event date"]) = .ok
      (["url", "title", "description", "Lead department", "Other departments"]
        ++ "Evaluation types" :: (expectedEvaluationTypes ++ ["Event Name", "Event date"])) :=
  C3_eval_type_flags mainInput ((normalizeTable mainInput).toOption.getD [])
    (by decide)
    ["url", "title", "description", "Lead department", "Other departments"]
    ["Event Name", "Event date"] (by decide) (by decide)

/-! ## Claim C5 -/

theorem bindE_ok {β γ : Type} (v : β) (g : β → Except String γ) :
    Except.bind (Except.ok v) g = g v := rfl

set_option maxHeartbeats 1000000

/-- Full behaviour of the column-layout pipeline on a scraped layout: the
boolean columns land right after "Evaluation types", the duplicate flag
right after "Event date", the nine pivoted date columns (vocabulary order)
right after the flag, and the working split columns are dropped. -/
theorem layoutPipeline_ok (A B C : List String)
    (hETA : "Evaluation types" ∉ A)
    (hEDA : "Event date" ∉ A) (hEDB : "Event date" ∉ B)
    (hET : ∀ t ∈ expectedEvaluationTypes, t ∉ A ∧ t ∉ B ∧ t ∉ C)
    (hEV : ∀ c ∈ expectedEventCols, c ∉ A ∧ c ∉ B ∧ c ∉ C)
    (hENS : "Event Name split" ∉ A ∧ "Event Name split" ∉ B ∧ "Event Name split" ∉ C)
    (hEDS : "Event date split" ∉ A ∧ "Event date split" ∉ B ∧ "Event date split" ∉ C)
    (hFlag : "Event Name duplicated" ∉ A ∧ "Event Name duplicated" ∉ B ∧
      "Event Name duplicated" ∉ C) :
    layoutPipeline (A ++ "Evaluation types" :: (B ++ "Event date" :: C)) = .ok
      ((A ++ "Evaluation types" :: (expectedEvaluationTypes ++ B))
        ++ "Event date" :: "Event Name duplicated" :: (expectedEventCols ++ C)) := by
  obtain ⟨hENSA, hENSB, hENSC⟩ := hENS
  obtain ⟨hEDSA, hEDSB, hEDSC⟩ := hEDS
  obtain ⟨hFlagA, hFlagB, hFlagC⟩ := hFlag
  -- literal disjointness facts about the fixed name lists
  have dET : ∀ t ∈ expectedEvaluationTypes,
      t ≠ "Evaluation types" ∧ t ≠ "Event date" ∧ t ≠ "Event Name split" ∧
      t ≠ "Event date split" ∧ t ≠ "Event Name duplicated" := by decide
  have dEV : ∀ c ∈ expectedEventCols,
      c ∉ expectedEvaluationTypes ∧ c ≠ "Evaluation types" ∧ c ≠ "Event date" ∧
      c ≠ "Event Name split" ∧ c ≠ "Event date split" ∧
      c ≠ "Event Name duplicated" := by decide
  have dENS : "Event Name split" ∉ expectedEvaluationTypes ∧
      "Event Name split" ≠ "Evaluation types" ∧
      "Event Name split" ≠ "Event date" := by decide
  have dEDS : "Event date split" ∉ expectedEvaluationTypes ∧
      "Event date split" ≠ "Evaluation types" ∧
      "Event date split" ≠ "Event date" ∧
      "Event date split" ≠ "Event Name split" := by decide
  have dFlag : "Event Name duplicated" ∉ expectedEvaluationTypes ∧
      "Event Name duplicated" ≠ "Evaluation types" ∧
      "Event Name duplicated" ≠ "Event date" ∧
      "Event Name duplicated" ≠ "Event Name split" ∧
      "Event Name duplicated" ≠ "Event date split" ∧
      "Event Name duplicated" ∉ expectedEventCols := by decide
  have dED : "Event date" ≠ "Evaluation types" ∧
      "Event date" ∉ expectedEvaluationTypes ∧
      "Event date" ∉ expectedEventCols := by decide
  -- Stage 1: the evaluation-type boolean columns
  have hc1 : insertEvalTypeCols (A ++ "Evaluation types" :: (B ++ "Event date" :: C))
      = .ok ((A ++ "Evaluation types" :: (expectedEvaluationTypes ++ B))
          ++ "Event date" :: C) := by
    rw [insertEvalTypeCols_ok A (B ++ "Event date" :: C) hETA ?_]
    · congr 1
      simp
    · intro t ht
      obtain ⟨h1, h2, h3⟩ := hET t ht
      refine ⟨h1, ?_⟩
      simp only [List.mem_append, List.mem_cons]
      rintro (h | h | h)
      · exact h2 h
      · exact (dET t ht).2.1 h
      · exact h3 h
  -- abbreviation for the part left of "Event date"
  set X := A ++ "Evaluation types" :: (expectedEvaluationTypes ++ B) with hXdef
  have hXmem : ∀ x, x ∈ X ↔
      x ∈ A ∨ x = "Evaluation types" ∨ x ∈ expectedEvaluationTypes ∨ x ∈ B := by
    intro x
    rw [hXdef]
    simp [List.mem_append, List.mem_cons]
  -- Stage 2: the two split working columns
  obtain ⟨dENS1, dENS2, dENS3⟩ := dENS
  obtain ⟨dEDS1, dEDS2, dEDS3, dEDS4⟩ := dEDS
  obtain ⟨dFlag1, dFlag2, dFlag3, dFlag4, dFlag5, dFlag6⟩ := dFlag
  obtain ⟨dED1, dED2, dED3⟩ := dED
  have hENSX : "Event Name split" ∉ X ++ "Event date" :: C := by
    intro h
    simp only [List.mem_append, List.mem_cons, hXmem] at h
    tauto
  have hEDSX : "Event date split" ∉ (X ++ "Event date" :: C) ++ ["Event Name split"] := by
    intro h
    simp only [List.mem_append, List.mem_cons, List.mem_singleton, hXmem] at h
    tauto
  have hc2 : setCol (setCol (X ++ "Event date" :: C) "Event Name split")
        "Event date split"
      = X ++ "Event date"
          :: (C ++ ["Event Name split"] ++ ["Event date split"]) := by
    rw [setCol_of_not_mem hENSX, setCol_of_not_mem hEDSX]
    simp
  -- Stage 3: the join with the pivoted date columns
  have hc3 : joinCols (X ++ "Event date"
        :: (C ++ ["Event Name split"] ++ ["Event date split"])) expectedEventCols
      = .ok (X ++ "Event date" :: (C ++ ["Event Name split"] ++ ["Event date split"]
          ++ expectedEventCols)) := by
    rw [joinCols_ok ?_]
    · congr 1
      simp
    · intro c hc
      obtain ⟨e1, e2, e3⟩ := hEV c hc
      obtain ⟨f1, f2, f3, f4, f5, f6⟩ := dEV c hc
      intro h
      simp only [List.mem_append, List.mem_cons, List.mem_singleton, hXmem] at h
      tauto
  -- Stage 4: locating "Event date"
  have hEDX : "Event date" ∉ X := by
    intro h
    rw [hXmem] at h
    tauto
  have hW : ∀ Z : List String, getLoc (X ++ "Event date" :: Z) "Event date"
      = .ok X.length := by
    intro Z
    rw [getLoc_ok (by simp), locOf_append_cons X Z hEDX]
  -- Stage 5: inserting the duplicate flag right after "Event date"
  have hFlagX : ∀ Z : List String,
      ("Event Name duplicated" ∉ Z) → "Event Name duplicated" ∉ X ++ "Event date" :: Z := by
    intro Z hZ h
    simp only [List.mem_append, List.mem_cons, hXmem] at h
    tauto
  have hc4 : colInsert (X ++ "Event date" :: (C ++ ["Event Name split"]
        ++ ["Event date split"] ++ expectedEventCols)) (X.length + 1)
        "Event Name duplicated"
      = .ok ((X ++ ["Event date"]) ++ "Event Name duplicated"
          :: (C ++ ["Event Name split"] ++ ["Event date split"]
            ++ expectedEventCols)) := by
    rw [colInsert_ok (hFlagX _ ?_) (by simp)]
    · rw [take_append_cons, drop_append_cons]
    · intro h
      simp only [List.mem_append, List.mem_singleton] at h
      tauto
  -- Stage 6: locating the flag
  have hFlagXED : "Event Name duplicated" ∉ X ++ ["Event date"] := by
    intro h
    simp only [List.mem_append, List.mem_singleton, hXmem] at h
    tauto
  have hloc2 : getLoc ((X ++ ["Event date"]) ++ "Event Name duplicated"
        :: (C ++ ["Event Name split"] ++ ["Event date split"] ++ expectedEventCols))
        "Event Name duplicated"
      = .ok (X.length + 1) := by
    rw [getLoc_ok (by simp), locOf_append_cons _ _ hFlagXED]
    simp
  -- Stage 7: the reorder
  have hCEV : ∀ x ∈ C, x ∉ expectedEventCols := by
    intro x hx hcx
    exact (hEV x hcx).2.2 hx
  have hnotc : ∀ (l : List String) (x : String), x ∉ l → (!(l.contains x)) = true := by
    intro l x h
    rcases hb : l.contains x with _ | _
    · rfl
    · exact absurd (List.elem_iff.mp hb) h
  have hyesc : ∀ (l : List String) (x : String), x ∈ l → (!(l.contains x)) = false := by
    intro l x h
    have hc : l.contains x = true := List.elem_iff.mpr h
    rw [hc]
    rfl
  have hreorder : reorderCols ((X ++ ["Event date"]) ++ "Event Name duplicated"
        :: (C ++ ["Event Name split"] ++ ["Event date split"] ++ expectedEventCols))
        (X.length + 1)
      = ((X ++ ["Event date"]) ++ ["Event Name duplicated"]) ++ expectedEventCols
        ++ (C ++ ["Event Name split"] ++ ["Event date split"]) := by
    unfold reorderCols
    rw [show X.length + 1 + 1 = (X ++ ["Event date"]).length + 1 by simp]
    rw [take_append_cons, drop_append_cons]
    rw [List.filter_append, List.filter_append, List.filter_append]
    rw [List.filter_eq_self.mpr (fun x hx => hnotc _ x (fun hc => (hEV x hc).2.2 hx)),
      List.filter_eq_self.mpr (fun x hx => ?_),
      List.filter_eq_self.mpr (fun x hx => ?_),
      List.filter_eq_nil_iff.mpr (fun x hx => by rw [hyesc _ x hx]; intro hc; cases hc)]
    · simp
    · rw [List.mem_singleton.mp hx]
      exact hnotc _ _ (by decide)
    · rw [List.mem_singleton.mp hx]
      exact hnotc _ _ (by decide)
  -- Stage 8: the column selection df[wanted]
  have hselect : selectCols ((X ++ ["Event date"]) ++ "Event Name duplicated"
        :: (C ++ ["Event Name split"] ++ ["Event date split"] ++ expectedEventCols))
        (((X ++ ["Event date"]) ++ ["Event Name duplicated"]) ++ expectedEventCols
          ++ (C ++ ["Event Name split"] ++ ["Event date split"]))
      = .ok (((X ++ ["Event date"]) ++ ["Event Name duplicated"]) ++ expectedEventCols
          ++ (C ++ ["Event Name split"] ++ ["Event date split"])) := by
    apply selectCols_ok
    intro c hc
    rcases List.mem_append.mp hc with h | hC'
    · rcases List.mem_append.mp h with h1 | hEV'
      · rcases List.mem_append.mp h1 with h2 | h3
        · exact List.mem_append_left _ h2
        · rw [List.mem_singleton.mp h3]
          exact List.mem_append_right _ (List.mem_cons_self _ _)
      · exact List.mem_append_right _
          (List.mem_cons_of_mem _ (List.mem_append_right _ hEV'))
    · exact List.mem_append_right _
        (List.mem_cons_of_mem _ (List.mem_append_left _ hC'))
  -- Stage 9: dropping the split working columns
  have hqtrue : ∀ c : String, c ≠ "Event Name split" → c ≠ "Event date split" →
      (!(c == "Event Name split" || c == "Event date split")) = true := by
    intro c h1 h2
    simp only [Bool.not_eq_true', Bool.or_eq_false_iff, beq_eq_false_iff_ne, ne_eq]
    exact ⟨h1, h2⟩
  have hXsplit : ∀ x ∈ X, x ≠ "Event Name split" ∧ x ≠ "Event date split" := by
    intro x hx
    rcases (hXmem x).mp hx with h | h | h | h
    · exact ⟨fun hc => hENSA (hc ▸ h), fun hc => hEDSA (hc ▸ h)⟩
    · exact ⟨h ▸ dENS2.symm, h ▸ dEDS2.symm⟩
    · exact ⟨(dET x h).2.2.1, (dET x h).2.2.2.1⟩
    · exact ⟨fun hc => hENSB (hc ▸ h), fun hc => hEDSB (hc ▸ h)⟩
  have hfX : X.filter
      (fun c => !(c == "Event Name split" || c == "Event date split")) = X :=
    List.filter_eq_self.mpr
      (fun x hx => hqtrue x (hXsplit x hx).1 (hXsplit x hx).2)
  have hfC : C.filter
      (fun c => !(c == "Event Name split" || c == "Event date split")) = C :=
    List.filter_eq_self.mpr (fun x hx =>
      hqtrue x (fun hc => hENSC (hc ▸ hx)) (fun hc => hEDSC (hc ▸ hx)))
  have hfEV : expectedEventCols.filter
      (fun c => !(c == "Event Name split" || c == "Event date split"))
      = expectedEventCols := by decide
  have hfED : (["Event date"] : List String).filter
      (fun c => !(c == "Event Name split" || c == "Event date split"))
      = ["Event date"] := by decide
  have hfFlag : (["Event Name duplicated"] : List String).filter
      (fun c => !(c == "Event Name split" || c == "Event date split"))
      = ["Event Name duplicated"] := by decide
  have hfENS : (["Event Name split"] : List String).filter
      (fun c => !(c == "Event Name split" || c == "Event date split"))
      = [] := by decide
  have hfEDS : (["Event date split"] : List String).filter
      (fun c => !(c == "Event Name split" || c == "Event date split"))
      = [] := by decide
  have hdrop : dropSplitCols (((X ++ ["Event date"]) ++ ["Event Name duplicated"])
        ++ expectedEventCols ++ (C ++ ["Event Name split"] ++ ["Event date split"]))
      = .ok (X ++ "Event date" :: "Event Name duplicated"
          :: (expectedEventCols ++ C)) := by
    unfold dropSplitCols
    rw [if_pos (by simp)]
    congr 1
    simp only [List.filter_append]
    rw [hfX, hfC, hfEV, hfED, hfFlag, hfENS, hfEDS]
    simp
  -- assemble the stages
  rw [layoutPipeline, hc1, bindE_ok, hc2, hc3, bindE_ok, hW, bindE_ok, hc4,
    bindE_ok, hloc2, bindE_ok, hreorder, hselect, bindE_ok, hdrop]

theorem contains_eq_false {l : List String} {x : String} (h : x ∉ l) :
    l.contains x = false := by
  rcases hb : l.contains x with _ | _
  · rfl
  · exact absurd (List.elem_iff.mp hb) h

theorem contains_eq_true {l : List String} {x : String} (h : x ∈ l) :
    l.contains x = true := List.elem_iff.mpr h

theorem rows_get?_of {input : List Details} {rows : List NormRow}
    (h : normalizeTable input = .ok rows) {i : Nat} {r : Record}
    (hr : (cleanRecords input).get? i = some r) :
    ∃ es, explodeAll (cleanRecords input) = .ok es ∧
      rows.get? i = some (buildRow (resolveDates (parseEntries es)) i r) := by
  rcases normalizeTable_rows h with ⟨es, hes, rfl⟩
  refine ⟨es, hes, ?_⟩
  rw [List.get?_map, List.enum_get?, hr]
  rfl

/-- C5: the final table has exactly one "Event - "-prefixed date column per
Event Type Vocabulary entry, in vocabulary order (the filter of the final
layout on those names is exactly the vocabulary-ordered name list),
regardless of the data; and a vocabulary entry that occurs in no record's
split Event Name list yields an all-null column. -/
theorem C5_pivot_columns (A B C : List String)
    (hETA : "Evaluation types" ∉ A)
    (hEDA : "Event date" ∉ A) (hEDB : "Event date" ∉ B)
    (hET : ∀ t ∈ expectedEvaluationTypes, t ∉ A ∧ t ∉ B ∧ t ∉ C)
    (hEV : ∀ c ∈ expectedEventCols, c ∉ A ∧ c ∉ B ∧ c ∉ C)
    (hENS : "Event Name split" ∉ A ∧ "Event Name split" ∉ B ∧ "Event Name split" ∉ C)
    (hEDS : "Event date split" ∉ A ∧ "Event date split" ∉ B ∧ "Event date split" ∉ C)
    (hFlag : "Event Name duplicated" ∉ A ∧ "Event Name duplicated" ∉ B ∧
      "Event Name duplicated" ∉ C)
    (input : List Details) (rows : List NormRow)
    (hok : normalizeTable input = .ok rows) :
    (∃ colsF, layoutPipeline (A ++ "Evaluation types" :: (B ++ "Event date" :: C))
        = .ok colsF ∧
      colsF.filter (fun c => expectedEventCols.contains c) = expectedEventCols) ∧
    (∀ j n, expectedEventNames.get? j = some n →
      (∀ row ∈ rows, n ∉ (splitNames row.record).getD []) →
      ∀ row ∈ rows, row.eventDates.get? j = some none) := by
  constructor
  · refine ⟨_, layoutPipeline_ok A B C hETA hEDA hEDB hET hEV hENS hEDS hFlag, ?_⟩
    have hdNotEV : "Evaluation types" ∉ expectedEventCols ∧
        "Event date" ∉ expectedEventCols ∧
        "Event Name duplicated" ∉ expectedEventCols ∧
        ∀ t ∈ expectedEvaluationTypes, t ∉ expectedEventCols := by decide
    have hXnil : (A ++ "Evaluation types" :: (expectedEvaluationTypes ++ B)).filter
        (fun c => expectedEventCols.contains c) = [] := by
      rw [List.filter_eq_nil_iff]
      intro x hx hcb
      have hc : x ∈ expectedEventCols := List.elem_iff.mp hcb
      simp only [List.mem_append, List.mem_cons] at hx
      rcases hx with h | h | h | h
      · exact (hEV x hc).1 h
      · exact hdNotEV.1 (h ▸ hc)
      · exact hdNotEV.2.2.2 x h hc
      · exact (hEV x hc).2.1 h
    have hCnil : C.filter (fun c => expectedEventCols.contains c) = [] := by
      rw [List.filter_eq_nil_iff]
      intro x hx hcb
      exact (hEV x (List.elem_iff.mp hcb)).2.2 hx
    rw [List.filter_append, hXnil,
      List.filter_cons_of_neg (by rw [contains_eq_false hdNotEV.2.1]; intro h; cases h),
      List.filter_cons_of_neg (by rw [contains_eq_false hdNotEV.2.2.1]; intro h; cases h),
      List.filter_append, hCnil,
      List.filter_eq_self.mpr (fun x hx => contains_eq_true hx)]
    simp
  · intro j n hjn hempty row hrow
    rcases List.mem_iff_get?.mp hrow with ⟨i, hi⟩
    rcases normalizeTable_get? hok hi with ⟨es, r, hes, hr, rfl⟩
    show (expectedEventNames.map
        (fun n => pivotCell (resolveDates (parseEntries es)) i n)).get? j = some none
    rw [List.get?_map, hjn, Option.map_some']
    refine congrArg some ?_
    by_contra hne
    rcases pivotCell_origin hes hne with ⟨r', names, hr', hs', hnn⟩
    rcases rows_get?_of hok hr' with ⟨es', hes', hrow'⟩
    have hes'' : es' = es := by
      rw [hes] at hes'
      cases hes'
      rfl
    rw [hes''] at hrow'
    have hmem' := List.get?_mem hrow'
    have := hempty _ hmem'
    rw [show (buildRow (resolveDates (parseEntries es)) i r').record = r' from rfl] at this
    rw [hs'] at this
    exact this hnn

theorem C5_pivot_columns_witness :
    (∃ colsF, layoutPipeline (["url", "title", "description", "Lead department",
        "Other departments"]
        ++ "Evaluation types" :: (["Event Name"] ++ "Event date" :: []))
        = .ok colsF ∧
      colsF.filter (fun c => expectedEventCols.contains c) = expectedEventCols) ∧
    (∀ j n, expectedEventNames.get? j = some n →
      (∀ row ∈ (normalizeTable mainInput).toOption.getD [],
        n ∉ (splitNames row.record).getD []) →
      ∀ row ∈ (normalizeTable mainInput).toOption.getD [],
        row.eventDates.get? j = some none) :=
  C5_pivot_columns
    ["url", "title", "description", "Lead department", "Other departments"]
    ["Event Name"] [] (by decide) (by decide) (by decide) (by decide) (by decide)
    (by decide) (by decide) (by decide) mainInput
    ((normalizeTable mainInput).toOption.getD []) (by decide)
